import Mathlib

/-!
# Verification of the preform AABB tree (`src/include/preform/sampling.hpp`)

Shallow embedding of the axis-aligned bounding-box tree of
`pr::aabbtree` / `pr::linear_aabbtree` and its three split strategies
(`aabbtree_split_equal_counts`, `aabbtree_split_equal_dimensions`,
`aabbtree_split_surface_area`).

Modelling choices:
* the floating-point scalar `Tfloat` is embedded as `ℚ` (the claims under
  verification are structural/er exact-arithmetic claims, not rounding claims);
* an `N`-dimensional point (`pr::multi<Tfloat, N>`) is a `List ℚ`;
* raw node pointers become an inductive type with an explicit `null`
  constructor, mirroring `node_type*`;
* the in-place partitioning of the proxy array is embedded functionally:
  each routine returns the rearranged proxy list alongside its result;
* the concurrent construction path (`std::async` branch of
  `aabbtree::init_recursive`) is embedded by its exact cursor dataflow: the
  left child's `first_index` cursor is precomputed from the pre-split sizes,
  its output cursor is discarded, and the right child continues from
  `first_index + left size`, exactly as in the source.  The spawn threshold
  (16384 in the source) is kept as a parameter so that theorems cover both
  the sequential and the asynchronous cursor path.
-/

namespace Preform

/-- Modelled from the spec: the axis-aligned bounding-box primitive
(`preform/aabb.hpp` is not under `src/`); a box is a pair of corner
points, `lo` the per-axis minima and `hi` the per-axis maxima
(`box[0]` and `box[1]` in the source). -/
structure Aabb where
  lo : List ℚ
  hi : List ℚ
deriving DecidableEq

/-- Modelled from the spec: box union `operator|=` of `preform/aabb.hpp`
(componentwise min of lower corners, max of upper corners). -/
def Aabb.union (a b : Aabb) : Aabb :=
  ⟨List.zipWith min a.lo b.lo, List.zipWith max a.hi b.hi⟩

/-- Modelled from the spec: box center (componentwise midpoint). -/
def Aabb.center (a : Aabb) : List ℚ :=
  List.zipWith (fun x y => (x + y) / 2) a.lo a.hi

/-- Modelled from the spec: box diagonal `diag()` (componentwise extent). -/
def Aabb.diag (a : Aabb) : List ℚ :=
  List.zipWith (fun x y => y - x) a.lo a.hi

/-- Product of a list of rationals. -/
def prodQ (l : List ℚ) : ℚ := l.foldl (fun x y => x * y) 1

/-- Modelled from the spec: surface area of an `N`-dimensional box,
`2 * Σ_i Π_{j ≠ i} diag_j` (for `N = 3` this is the usual
`2(d₀d₁ + d₁d₂ + d₂d₀)`). -/
def Aabb.surface_area (a : Aabb) : ℚ :=
  2 * ((List.range a.diag.length).map (fun i => prodQ (a.diag.eraseIdx i))).sum

/-- The componentwise strict properness check of
`assert((box[0] < box[1]).all())` in `aabbtree::init`: every coordinate of
the lower corner is strictly below the matching upper coordinate. -/
def Aabb.strictlyProper (a : Aabb) : Bool :=
  a.lo.length == a.hi.length &&
    (List.zipWith (fun x y => decide (x < y)) a.lo a.hi).all id

/-- A degenerate box (a point) surrounding a single point, used to fold
`box_center |= proxy.box_center`. -/
def pointBox (p : List ℚ) : Aabb := ⟨p, p⟩

/-- Modelled from the spec: `multi::argmax()` (`preform/multi.hpp` is not
under `src/`) — index of the first maximum entry (0 on the empty list):
a later entry supersedes the running maximum only when strictly larger. -/
def argmaxQ : List ℚ → ℕ
  | [] => 0
  | [_] => 0
  | x :: y :: xs =>
    let j := argmaxQ (y :: xs)
    if x < (y :: xs).getD j 0 then j + 1 else 0

/-- `std::min_element` position: index of the first minimum entry (0 on
the empty list): a later entry supersedes the running minimum only when
strictly smaller. -/
def argminQ : List ℚ → ℕ
  | [] => 0
  | [_] => 0
  | x :: y :: xs =>
    let j := argminQ (y :: xs)
    if (y :: xs).getD j 0 < x then j + 1 else 0

/-- `aabbtree::proxy_type`: box, box center, original value index. -/
structure Proxy where
  box : Aabb
  box_center : List ℚ
  value_index : ℕ
deriving DecidableEq

/-- One step of folding a box into an accumulator that starts out as the
default-constructed (inverted, empty) box of the source: `none` stands for
the default box, for which `|=` behaves as identity. -/
def unionStep (acc : Option Aabb) (b : Aabb) : Option Aabb :=
  match acc with
  | none => some b
  | some a => some (a.union b)

/-- The fold `for (proxy : proxies) box |= proxy.box;` starting from the
default-constructed box. -/
def surroundO (l : List Aabb) : Option Aabb := l.foldl unionStep none

/-- Surrounding box of a list of boxes (meaningful for nonempty lists;
the builder only evaluates it on nonempty ranges, cf. `assert(count)`). -/
def surround (l : List Aabb) : Aabb := (surroundO l).getD ⟨[], []⟩

/-- Surrounding box of a list of points (`box_center |= proxy.box_center`). -/
def surroundPts (l : List (List ℚ)) : Aabb := surround (l.map pointBox)

/-- A split strategy: takes the surrounding box, the surrounding box of
centers, the split dimension and the proxy sub-range; returns the
rearranged sub-range together with the split position (the C++ returns a
pointer `split` into the rearranged array; here the rearranged list and
the index of `split` within it). -/
def SplitFn : Type := Aabb → Aabb → ℕ → List Proxy → List Proxy × ℕ

/-- Comparator `proxy0.box_center[split_dim] < proxy1.box_center[split_dim]`
used by `std::nth_element` in `aabbtree_split_equal_counts`. -/
def centerLt (split_dim : ℕ) (p q : Proxy) : Prop :=
  p.box_center.getD split_dim 0 < q.box_center.getD split_dim 0

instance (split_dim : ℕ) : DecidableRel (centerLt split_dim) := by
  intro p q
  unfold centerLt
  infer_instance

/-- `aabbtree_split_equal_counts::operator()`: `std::nth_element` about the
middle position.  `nth_element` is embedded as a full sort by the same
comparator — a deterministic refinement of its partial rearrangement
guarantee (element order within each side is unspecified in the source) —
with the split at `size / 2`. -/
def aabbtree_split_equal_counts : SplitFn := fun _box _box_center split_dim proxies =>
  (proxies.insertionSort (centerLt split_dim), proxies.length / 2)

/-- `aabbtree_split_equal_dimensions::operator()`: `std::partition` by
`box_center[split_dim] < cen` with `cen` the midpoint of the box of centers;
falls back to equal counts when either side is empty.  `std::partition` is
embedded as the order-preserving `List.filter` pair, a deterministic
refinement of its unspecified element order. -/
def aabbtree_split_equal_dimensions : SplitFn := fun box box_center split_dim proxies =>
  let cen := (box_center.lo.getD split_dim 0 + box_center.hi.getD split_dim 0) / 2
  let l := proxies.filter (fun p => decide (p.box_center.getD split_dim 0 < cen))
  let r := proxies.filter (fun p => !decide (p.box_center.getD split_dim 0 < cen))
  if l.length ≠ 0 ∧ l.length ≠ proxies.length then
    (l ++ r, l.length)
  else
    aabbtree_split_equal_counts box box_center split_dim proxies

/-- The bucket index of a center coordinate in
`aabbtree_split_surface_area`:
`min(Nbins * ((cen - cenmin) / (cenmax - cenmin)), Nbins - 1)` with the
float-to-`size_t` conversion (truncation; for the in-range nonnegative
values the source produces this is the floor). -/
def binIndex (Nbins : ℕ) (cenmin cenmax cen : ℚ) : ℕ :=
  min (Int.toNat (Int.floor ((Nbins : ℚ) * ((cen - cenmin) / (cenmax - cenmin)))))
      (Nbins - 1)

/-- A SAH bin: box-so-far (`none` = the default-constructed box, into which
`|=` acts as identity) and proxy count. -/
def BinT : Type := Option Aabb × ℕ

/-- Fold one proxy into the bin array (`bins[pos].first |= proxy.box;
bins[pos].second++;`). -/
def binFold (Nbins : ℕ) (cenmin cenmax : ℚ) (split_dim : ℕ)
    (bins : List BinT) (p : Proxy) : List BinT :=
  let pos := binIndex Nbins cenmin cenmax (p.box_center.getD split_dim 0)
  let b := bins.getD pos (none, 0)
  bins.set pos (unionStep b.1 p.box, b.2 + 1)

/-- The populated bin array of `aabbtree_split_surface_area`. -/
def sahBins (Nbins : ℕ) (cenmin cenmax : ℚ) (split_dim : ℕ)
    (proxies : List Proxy) : List BinT :=
  proxies.foldl (binFold Nbins cenmin cenmax split_dim)
    (List.replicate Nbins ((none : Option Aabb), 0))

/-- Combination of two bins: union of the boxes, sum of the counts (one
step of the `lsweep`/`rsweep` recurrences). -/
def binUnion (x y : BinT) : BinT :=
  (match x.1, y.1 with
   | none, b => b
   | some a, none => some a
   | some a, some b => some (a.union b), x.2 + y.2)

/-- The left sweep: entry `i` is `lsweep[i]` of the source, by the
recurrence `lsweep[0] = bins[0]`, `lsweep[i] = lsweep[i-1] ⊔ bins[i]`,
for `i < Nbins - 1`. -/
def lsweepOf (bins : List BinT) : List BinT :=
  match bins with
  | [] => []
  | b :: bs => (List.scanl binUnion b bs).dropLast

/-- Suffix combinations: entry `i` is the combination of `bins[i..]`. -/
def suffixBins : List BinT → List BinT
  | [] => []
  | b :: bs =>
    match suffixBins bs with
    | [] => [b]
    | s :: ss => binUnion b s :: s :: ss

/-- The right sweep: entry `i` is `rsweep[i]` of the source, the
combination of `bins[i+1 ..]`, by the recurrence
`rsweep[Nbins-2] = bins[Nbins-1]`, `rsweep[i] = rsweep[i+1] ⊔ bins[i+1]`. -/
def rsweepOf (bins : List BinT) : List BinT :=
  (suffixBins bins).tail

/-- Surface area of a bin box (`first.surface_area()`); the `none` case
stands for the default-constructed box of the source and is never
evaluated when the box of centers is tight over the proxies (the only way
the builder calls this). -/
def binSA (o : Option Aabb) : ℚ :=
  match o with
  | none => 0
  | some a => a.surface_area

/-- The SAH cost array: entry `i` is
`lsweep[i].SA * lsweep[i].count + rsweep[i].SA * rsweep[i].count`. -/
def sahCosts (bins : List BinT) : List ℚ :=
  List.zipWith (fun l r => binSA l.1 * (l.2 : ℚ) + binSA r.1 * (r.2 : ℚ))
    (lsweepOf bins) (rsweepOf bins)

/-- `aabbtree_split_surface_area<Nbins>::operator()`: falls back to equal
counts when the box of centers is degenerate along the split dimension;
otherwise bins the proxies, sweeps, takes the cost argmin
(`std::min_element`, first minimum) and partitions by
`bucket index ≤ costs_argmin`, falling back to equal counts when either
side of the partition is empty. -/
def aabbtree_split_surface_area (Nbins : ℕ) : SplitFn :=
  fun box box_center split_dim proxies =>
  let cenmin := box_center.lo.getD split_dim 0
  let cenmax := box_center.hi.getD split_dim 0
  if cenmin = cenmax then
    aabbtree_split_equal_counts box box_center split_dim proxies
  else
    let bins := sahBins Nbins cenmin cenmax split_dim proxies
    let costs_argmin := argminQ (sahCosts bins)
    let l := proxies.filter
      (fun p => decide (binIndex Nbins cenmin cenmax
        (p.box_center.getD split_dim 0) ≤ costs_argmin))
    let r := proxies.filter
      (fun p => !decide (binIndex Nbins cenmin cenmax
        (p.box_center.getD split_dim 0) ≤ costs_argmin))
    if l.length ≠ 0 ∧ l.length ≠ proxies.length then
      (l ++ r, l.length)
    else
      aabbtree_split_equal_counts box box_center split_dim proxies

/-- `aabbtree::node_type` together with the null pointer: `null` embeds
`nullptr`; a `node` carries the fields of the source struct in order
(`box`, `left`, `right`, `split_dim`, `first_index`, `count`). -/
inductive PNode where
  | null : PNode
  | node (box : Aabb) (left right : PNode)
      (split_dim first_index count : ℕ) : PNode
deriving DecidableEq

/-- The spawn threshold of `aabbtree::init_recursive`
(`if (count <= 16384)` chooses the sequential recursion). -/
def asyncThreshold : ℕ := 16384

/-- The surrounding box of a proxy sub-range (`box |= proxy.box` loop of
`aabbtree::init_recursive`). -/
def nodeBox (proxies : List Proxy) : Aabb := surround (proxies.map Proxy.box)

/-- The surrounding box of the proxy centers
(`box_center |= proxy.box_center` loop of `aabbtree::init_recursive`). -/
def nodeCenterBox (proxies : List Proxy) : Aabb :=
  surroundPts (proxies.map Proxy.box_center)

/-- `aabbtree::init_recursive`, parameterized by the leaf cutoff, the
spawn threshold (16384 in the source) and the split strategy.  Returns the
built node, the rearranged proxy sub-range, and the advanced `first_index`
cursor.  The `count ≤ threshold` branch is the sequential recursion; the
other branch is the `std::async` path, whose left cursor `first_index_left`
is precomputed from the pre-split sizes, whose left output cursor is
discarded, and whose shared cursor continues at
`first_index + (split - begin)` into the right child — the exact dataflow
of the source.  The guard `hs` embeds
`assert(split && begin <= split && end > split)` together with
`assert(count)` on the recursive calls: the source aborts when a splitter
violates it (no strategy of this file does), and the embedding returns the
current range as a leaf in that dead branch. -/
def init_recursive (leaf_cutoff threshold : ℕ) (split : SplitFn)
    (first_index : ℕ) (proxies : List Proxy) : PNode × List Proxy × ℕ :=
  let box := nodeBox proxies
  let box_center := nodeCenterBox proxies
  let count := proxies.length
  if count ≤ leaf_cutoff then
    (PNode.node box PNode.null PNode.null 0 first_index count,
     proxies, first_index + count)
  else
    let split_dim := argmaxQ box_center.diag
    let sp := split box box_center split_dim proxies
    if hs : 0 < sp.2 ∧ sp.2 < sp.1.length ∧ sp.1.length = proxies.length then
      let lps := sp.1.take sp.2
      let rps := sp.1.drop sp.2
      if count ≤ threshold then
        let lres := init_recursive leaf_cutoff threshold split first_index lps
        let rres := init_recursive leaf_cutoff threshold split lres.2.2 rps
        (PNode.node box lres.1 rres.1 split_dim 0 0,
         lres.2.1 ++ rres.2.1, rres.2.2)
      else
        let first_index_left := first_index
        let lres := init_recursive leaf_cutoff threshold split first_index_left lps
        let rres := init_recursive leaf_cutoff threshold split
          (first_index + lps.length) rps
        (PNode.node box lres.1 rres.1 split_dim 0 0,
         lres.2.1 ++ rres.2.1, rres.2.2)
    else
      (PNode.node box PNode.null PNode.null 0 first_index count,
       proxies, first_index + count)
termination_by proxies.length
decreasing_by
  · simpa [List.length_take] using
      lt_of_le_of_lt (min_le_left sp.2 sp.1.length) (hs.2.2 ▸ hs.2.1)
  · simpa [List.length_drop, hs.2.2] using
      Nat.sub_lt_of_pos_le hs.1 (le_of_lt (hs.2.2 ▸ hs.2.1))
  · simpa [List.length_take] using
      lt_of_le_of_lt (min_le_left sp.2 sp.1.length) (hs.2.2 ▸ hs.2.1)
  · simpa [List.length_drop, hs.2.2] using
      Nat.sub_lt_of_pos_le hs.1 (le_of_lt (hs.2.2 ▸ hs.2.1))

/-- Number of branch nodes of a subtree (each branch increments the
atomic `total_branches` exactly once; `count == 0` marks a branch). -/
def PNode.branches : PNode → ℕ
  | PNode.null => 0
  | PNode.node _ l r _ _ c => if c = 0 then 1 + l.branches + r.branches else 0

/-- Number of leaf nodes of a subtree (each leaf increments the atomic
`total_leaves` exactly once; `count != 0` marks a leaf). -/
def PNode.leafNodes : PNode → ℕ
  | PNode.null => 0
  | PNode.node _ l r _ _ c => if c = 0 then l.leafNodes + r.leafNodes else 1

/-- The `(first_index, count)` pairs of the leaves in depth-first
left-to-right order. -/
def PNode.leafList : PNode → List (ℕ × ℕ)
  | PNode.null => []
  | PNode.node _ l r _ fi c =>
    if c = 0 then l.leafList ++ r.leafList else [(fi, c)]

/-- All non-null nodes of a subtree, in depth-first left-first preorder. -/
def PNode.preorder : PNode → List PNode
  | PNode.null => []
  | PNode.node bx l r sd fi c =>
    PNode.node bx l r sd fi c :: (l.preorder ++ r.preorder)

/-- The box field of a node (`⟨[], []⟩` for null, never used there). -/
def PNode.nbox : PNode → Aabb
  | PNode.null => ⟨[], []⟩
  | PNode.node bx _ _ _ _ _ => bx

/-- Sum of the leaf counts of a subtree (the number of proxies the
subtree covers). -/
def PNode.coveredCount : PNode → ℕ
  | PNode.null => 0
  | PNode.node _ l r _ _ c => if c = 0 then l.coveredCount + r.coveredCount else c

/-- The `first_index` of the leftmost leaf of a subtree (the start of the
contiguous proxy range the subtree covers). -/
def PNode.firstCovered : PNode → ℕ
  | PNode.null => 0
  | PNode.node _ l r _ fi c => if c = 0 then l.firstCovered else fi

/-- Whether the `(first_index, count)` leaf ranges, in order, are
consecutive starting at `start` (each `first_index` equals the previous
`first_index + count`). -/
def consecutiveFrom (start : ℕ) : List (ℕ × ℕ) → Bool
  | [] => true
  | (fi, c) :: rest => fi == start && consecutiveFrom (start + c) rest

/-- The observable state of a `pr::aabbtree`: leaf cutoff, root pointer,
the two counters, and the proxy vector. -/
structure AabbtreeState where
  leaf_cutoff : ℕ
  root : PNode
  total_branches : ℕ
  total_leaves : ℕ
  proxies : List Proxy
deriving DecidableEq

/-- A default-constructed `aabbtree` (member initializers:
`leaf_cutoff_ = 8`, null root, zero counters, empty proxy vector). -/
def aabbtreeDefault : AabbtreeState :=
  ⟨8, PNode.null, 0, 0, []⟩

/-- The leaf-cutoff constructor `aabbtree(leaf_cutoff)`, with its
`assert(leaf_cutoff_ < size_type(256))` embedded as the `none` result. -/
def aabbtreeMake (leaf_cutoff : ℕ) : Option AabbtreeState :=
  if leaf_cutoff < 256 then some ⟨leaf_cutoff, PNode.null, 0, 0, []⟩ else none

/-- `aabbtree::clear()`: null root, zero counters, empty proxy vector;
the leaf cutoff is untouched. -/
def aabbtreeClear (t : AabbtreeState) : AabbtreeState :=
  { t with root := PNode.null, total_branches := 0, total_leaves := 0,
           proxies := [] }

/-- The proxy-initialization loop of `aabbtree::init`: one proxy per input
element, holding `func(*from)`, its center, and the running `value_index`. -/
def buildProxies {α : Type} (func : α → Aabb) (vals : List α) : List Proxy :=
  vals.enum.map (fun iv => ⟨func iv.2, (func iv.2).center, iv.1⟩)

/-- `aabbtree::init`: clear, return on an empty range, otherwise build the
proxies and the tree; the final counters are the per-node tallies of the
atomic counters.  The assertion `assert((box[0] < box[1]).all())` of the
proxy loop is a debug check modelled separately by `aabbtreeInitChecked`. -/
def aabbtreeInit {α : Type} (split : SplitFn) (t : AabbtreeState)
    (vals : List α) (func : α → Aabb) : AabbtreeState :=
  let t0 := aabbtreeClear t
  if vals.length < 1 then t0
  else
    let ps := buildProxies func vals
    let res := init_recursive t0.leaf_cutoff asyncThreshold split 0 ps
    { t0 with root := res.1, proxies := res.2.1,
              total_branches := res.1.branches,
              total_leaves := res.1.leafNodes }

/-- `aabbtree::init` with the proxy-loop assertion
`assert((box[0] < box[1]).all())` made explicit: `none` exactly when some
extracted box fails the componentwise strictness check. -/
def aabbtreeInitChecked {α : Type} (split : SplitFn) (t : AabbtreeState)
    (vals : List α) (func : α → Aabb) : Option AabbtreeState :=
  if vals.all (fun v => (func v).strictlyProper) then
    some (aabbtreeInit split t vals func)
  else
    none

/-- `linear_aabbtree::node_type`: box, the shared 32-bit field
(`right_offset` for a branch, `first_index` for a leaf), and the two
8-bit fields `count` and `split_dim`.  The stored values carry the
wrap-around of the machine field widths explicitly. -/
structure LinearNode where
  box : Aabb
  offset_or_first : ℕ
  count : ℕ
  split_dim : ℕ
deriving DecidableEq

/-- The `right_offset` union member (valid for a branch). -/
def LinearNode.right_offset (n : LinearNode) : ℕ := n.offset_or_first

/-- The `first_index` union member (valid for a leaf). -/
def LinearNode.first_index (n : LinearNode) : ℕ := n.offset_or_first

/-- `linear_aabbtree::init_recursive`: flatten a pointer tree into the
depth-first left-first preorder node array.  Emitting a node and patching
`right_offset = nodes_.size() - node_index` after the left subtree is
embedded as consing the finished node onto `left ++ right`, with
`right_offset = 1 + (size of the flattened left subtree)`; the stores into
the `uint32_t` union field and the `uint8_t` `count`/`split_dim` fields
wrap mod `2^32` and `2^8` (the source asserts `count < 256` before the
store).  The source never calls this on null (`assert(tree_node)`). -/
def linear_init_recursive : PNode → List LinearNode
  | PNode.null => []
  | PNode.node bx l r sd fi c =>
    if c = 0 then
      let ln := linear_init_recursive l
      let rn := linear_init_recursive r
      ⟨bx, (1 + ln.length) % 2 ^ 32, 0, sd % 2 ^ 8⟩ :: (ln ++ rn)
    else
      [⟨bx, fi % 2 ^ 32, c % 2 ^ 8, 0⟩]

/-- The `linear_aabbtree(const aabbtree&)` constructor: an empty node
array for a null root, otherwise the flattening of the root. -/
def linear_aabbtree_ctor (t : AabbtreeState) : List LinearNode :=
  linear_init_recursive t.root

/-! ## Basic lemmas: argmin/argmax, box algebra, surround invariance -/

theorem argminQ_lt_length : ∀ (l : List ℚ), l ≠ [] → argminQ l < l.length
  | [], h => absurd rfl h
  | [_], _ => by simp [argminQ]
  | x :: y :: xs, _ => by
    have ih := argminQ_lt_length (y :: xs) (by simp)
    simp only [argminQ]
    split
    · simpa using Nat.succ_lt_succ ih
    · simp

theorem argminQ_getD_le :
    ∀ (l : List ℚ) (i : ℕ), i < l.length →
      l.getD (argminQ l) 0 ≤ l.getD i 0
  | [], i, h => by simp at h
  | [x], i, h => by
    have : i = 0 := Nat.lt_one_iff.mp (by simpa using h)
    subst this
    simp [argminQ]
  | x :: y :: xs, i, h => by
    simp only [argminQ]
    split
    · rename_i hlt
      rw [List.getD_cons_succ]
      match i with
      | 0 => exact le_of_lt (by simpa using hlt)
      | Nat.succ i' =>
        rw [List.getD_cons_succ]
        exact argminQ_getD_le (y :: xs) i' (by simpa using h)
    · rename_i hge
      rw [List.getD_cons_zero]
      match i with
      | 0 => simp
      | Nat.succ i' =>
        rw [List.getD_cons_succ]
        refine le_trans (not_lt.mp hge) ?_
        exact argminQ_getD_le (y :: xs) i' (by simpa using h)

theorem argmaxQ_lt_length : ∀ (l : List ℚ), l ≠ [] → argmaxQ l < l.length
  | [], h => absurd rfl h
  | [_], _ => by simp [argmaxQ]
  | x :: y :: xs, _ => by
    have ih := argmaxQ_lt_length (y :: xs) (by simp)
    simp only [argmaxQ]
    split
    · simpa using Nat.succ_lt_succ ih
    · simp

theorem argmaxQ_getD_ge :
    ∀ (l : List ℚ) (i : ℕ), i < l.length →
      l.getD i 0 ≤ l.getD (argmaxQ l) 0
  | [], i, h => by simp at h
  | [x], i, h => by
    have : i = 0 := Nat.lt_one_iff.mp (by simpa using h)
    subst this
    simp [argmaxQ]
  | x :: y :: xs, i, h => by
    simp only [argmaxQ]
    split
    · rename_i hlt
      rw [List.getD_cons_succ]
      match i with
      | 0 => exact le_of_lt (by simpa using hlt)
      | Nat.succ i' =>
        rw [List.getD_cons_succ]
        exact argmaxQ_getD_ge (y :: xs) i' (by simpa using h)
    · rename_i hge
      rw [List.getD_cons_zero]
      match i with
      | 0 => simp
      | Nat.succ i' =>
        rw [List.getD_cons_succ]
        refine le_trans ?_ (not_lt.mp hge)
        exact argmaxQ_getD_ge (y :: xs) i' (by simpa using h)

theorem zipWith_assocQ (f : ℚ → ℚ → ℚ)
    (hf : ∀ x y z, f (f x y) z = f x (f y z)) :
    ∀ a b c : List ℚ,
      List.zipWith f (List.zipWith f a b) c =
        List.zipWith f a (List.zipWith f b c)
  | [], _, _ => by simp
  | _ :: _, [], _ => by simp
  | _ :: _, _ :: _, [] => by simp
  | x :: a, y :: b, z :: c => by
    simp only [List.zipWith_cons_cons, hf]
    exact congrArg _ (zipWith_assocQ f hf a b c)

theorem Aabb.union_comm (a b : Aabb) : a.union b = b.union a := by
  simp only [Aabb.union]
  rw [List.zipWith_comm_of_comm min min_comm,
      List.zipWith_comm_of_comm max max_comm]

theorem Aabb.union_assoc (a b c : Aabb) :
    (a.union b).union c = a.union (b.union c) := by
  simp only [Aabb.union]
  rw [zipWith_assocQ min min_assoc, zipWith_assocQ max max_assoc]

theorem unionStep_right_comm (o : Option Aabb) (a b : Aabb) :
    unionStep (unionStep o a) b = unionStep (unionStep o b) a := by
  cases o with
  | none =>
    simp only [unionStep]
    rw [Aabb.union_comm]
  | some x =>
    simp only [unionStep]
    rw [Aabb.union_assoc, Aabb.union_assoc, Aabb.union_comm a b]

theorem surroundO_perm {l l' : List Aabb} (h : l.Perm l') :
    surroundO l = surroundO l' := by
  unfold surroundO
  letI : RightCommutative unionStep := ⟨unionStep_right_comm⟩
  exact h.foldl_eq none

theorem surround_perm {l l' : List Aabb} (h : l.Perm l') :
    surround l = surround l' := by
  unfold surround
  rw [surroundO_perm h]

theorem surroundPts_perm {l l' : List (List ℚ)} (h : l.Perm l') :
    surroundPts l = surroundPts l' := by
  unfold surroundPts
  exact surround_perm (h.map pointBox)

theorem nodeBox_perm {l l' : List Proxy} (h : l.Perm l') :
    nodeBox l = nodeBox l' := by
  unfold nodeBox
  exact surround_perm (h.map Proxy.box)

theorem nodeCenterBox_perm {l l' : List Proxy} (h : l.Perm l') :
    nodeCenterBox l = nodeCenterBox l' := by
  unfold nodeCenterBox
  exact surroundPts_perm (h.map Proxy.box_center)

/-! ## The split-strategy guarantee -/

/-- What `aabbtree::init_recursive` relies on from a split strategy, cf.
`assert(split && proxies.begin() <= split && proxies.end() > split)`
together with `assert(count)` in the recursive calls: on a range of at
least two proxies, a strategy returns a rearrangement (permutation) of the
range and a partition point strictly inside it. -/
def GoodSplit (split : SplitFn) : Prop :=
  ∀ (box box_center : Aabb) (split_dim : ℕ) (ps : List Proxy),
    2 ≤ ps.length →
      (split box box_center split_dim ps).1.Perm ps ∧
      0 < (split box box_center split_dim ps).2 ∧
      (split box box_center split_dim ps).2 < ps.length

theorem goodSplit_equal_counts : GoodSplit aabbtree_split_equal_counts := by
  intro box bc d ps hlen
  unfold aabbtree_split_equal_counts
  refine ⟨List.perm_insertionSort _ ps, ?_, ?_⟩
  · exact Nat.div_pos hlen (by norm_num)
  · exact Nat.div_lt_self (by omega) (by norm_num)

theorem goodSplit_equal_dimensions : GoodSplit aabbtree_split_equal_dimensions := by
  intro box bc d ps hlen
  simp only [aabbtree_split_equal_dimensions]
  split
  · rename_i hok
    dsimp only
    constructor
    · exact List.filter_append_perm _ ps
    · have hle := List.length_filter_le
        (fun p => decide (p.box_center.getD d 0 <
          (bc.lo.getD d 0 + bc.hi.getD d 0) / 2)) ps
      exact ⟨Nat.pos_of_ne_zero hok.1, lt_of_le_of_ne hle hok.2⟩
  · exact goodSplit_equal_counts box bc d ps hlen

theorem goodSplit_surface_area (Nbins : ℕ) :
    GoodSplit (aabbtree_split_surface_area Nbins) := by
  intro box bc d ps hlen
  simp only [aabbtree_split_surface_area]
  split
  · exact goodSplit_equal_counts box bc d ps hlen
  · split
    · rename_i hok
      constructor
      · exact List.filter_append_perm _ ps
      · have hle := List.length_filter_le
          (fun p => decide (binIndex Nbins (bc.lo.getD d 0) (bc.hi.getD d 0)
            (p.box_center.getD d 0) ≤
              argminQ (sahCosts (sahBins Nbins (bc.lo.getD d 0)
                (bc.hi.getD d 0) d ps)))) ps
        exact ⟨Nat.pos_of_ne_zero hok.1, lt_of_le_of_ne hle hok.2⟩
    · exact goodSplit_equal_counts box bc d ps hlen

/-! ## Structural invariants of built trees -/

/-- The node shape invariant (claim of §3 of the spec): a node is a
branch exactly when `count == 0`, a branch has two non-null children, a
leaf has null children and `1 ≤ count ≤ leaf_cutoff`. -/
def WFnode (lc : ℕ) : PNode → Prop
  | PNode.null => True
  | PNode.node _ l r _ _ c =>
    if c = 0 then
      l ≠ PNode.null ∧ r ≠ PNode.null ∧ WFnode lc l ∧ WFnode lc r
    else
      l = PNode.null ∧ r = PNode.null ∧ 1 ≤ c ∧ c ≤ lc

instance WFnode.dec (lc : ℕ) : (t : PNode) → Decidable (WFnode lc t)
  | PNode.null => Decidable.isTrue trivial
  | PNode.node bx l r sd fi c =>
    letI := WFnode.dec lc l
    letI := WFnode.dec lc r
    if hc : c = 0 then
      decidable_of_iff
        (l ≠ PNode.null ∧ r ≠ PNode.null ∧ WFnode lc l ∧ WFnode lc r)
        (by rw [WFnode, if_pos hc])
    else
      decidable_of_iff (l = PNode.null ∧ r = PNode.null ∧ 1 ≤ c ∧ c ≤ lc)
        (by rw [WFnode, if_neg hc])

/-- The sub-segment of the (final, rearranged) proxy array covered by a
subtree whose leaf ranges start at absolute index `firstCovered`: the
array `arr` holds the proxies of absolute indices `base, base+1, …`. -/
def segOf (arr : List Proxy) (base : ℕ) (t : PNode) : List Proxy :=
  (arr.drop (t.firstCovered - base)).take t.coveredCount

/-- The geometric invariant of a built subtree against the rearranged
proxy array: every node's box is exactly the surrounding box of the
proxies of its covered segment, and every branch's split dimension is the
argmax of the extent of the surrounding box of that segment's centers. -/
def GeomOK (arr : List Proxy) (base : ℕ) : PNode → Prop
  | PNode.null => True
  | PNode.node bx l r sd fi c =>
    bx = nodeBox (segOf arr base (PNode.node bx l r sd fi c)) ∧
    (c = 0 → sd = argmaxQ (nodeCenterBox
      (segOf arr base (PNode.node bx l r sd fi c))).diag) ∧
    GeomOK arr base l ∧ GeomOK arr base r

instance GeomOK.dec (arr : List Proxy) (base : ℕ) :
    (t : PNode) → Decidable (GeomOK arr base t)
  | PNode.null => Decidable.isTrue trivial
  | PNode.node bx l r sd fi c =>
    letI := GeomOK.dec arr base l
    letI := GeomOK.dec arr base r
    decidable_of_iff
      (bx = nodeBox (segOf arr base (PNode.node bx l r sd fi c)) ∧
       (c = 0 → sd = argmaxQ (nodeCenterBox
         (segOf arr base (PNode.node bx l r sd fi c))).diag) ∧
       GeomOK arr base l ∧ GeomOK arr base r)
      (by rw [GeomOK])

theorem consecutiveFrom_append (a b : List (ℕ × ℕ)) (s : ℕ) :
    consecutiveFrom s (a ++ b) =
      (consecutiveFrom s a && consecutiveFrom (s + (a.map Prod.snd).sum) b) := by
  induction a generalizing s with
  | nil => simp [consecutiveFrom]
  | cons hd tl ih =>
    obtain ⟨fi, c⟩ := hd
    simp only [List.cons_append, consecutiveFrom, List.map_cons,
      List.sum_cons, List.append_eq]
    rw [ih, Nat.add_assoc, Bool.and_assoc]

/-- `init_recursive` always returns a (non-null) node. -/
theorem init_recursive_ne_null (lc thr : ℕ) (split : SplitFn)
    (fi : ℕ) (ps : List Proxy) :
    (init_recursive lc thr split fi ps).1 ≠ PNode.null := by
  rw [init_recursive]
  dsimp only
  split
  · simp
  · split
    · split
      · simp
      · simp
    · simp

/-- Extending the proxy array on the right does not disturb the geometric
invariant of a subtree whose covered ranges fit inside the array. -/
theorem GeomOK_append_right (arr post : List Proxy) (base : ℕ) :
    ∀ t : PNode, GeomOK arr base t →
      (∀ s ∈ t.preorder,
        base ≤ s.firstCovered ∧
        s.firstCovered + s.coveredCount ≤ base + arr.length) →
      GeomOK (arr ++ post) base t
  | PNode.null, _, _ => trivial
  | PNode.node bx l r sd fi c, h, hr => by
    have hself := hr (PNode.node bx l r sd fi c) (by rw [PNode.preorder]; simp)
    rw [GeomOK] at h ⊢
    have hseg : segOf (arr ++ post) base (PNode.node bx l r sd fi c) =
        segOf arr base (PNode.node bx l r sd fi c) := by
      unfold segOf
      rw [List.drop_append_of_le_length (by omega),
        List.take_append_of_le_length (by simp; omega)]
    refine ⟨hseg ▸ h.1, hseg ▸ h.2.1, ?_, ?_⟩
    · exact GeomOK_append_right arr post base l h.2.2.1
        (fun s hs => hr s (by rw [PNode.preorder]; simp [hs]))
    · exact GeomOK_append_right arr post base r h.2.2.2
        (fun s hs => hr s (by rw [PNode.preorder]; simp [hs]))

/-- Prepending to the proxy array, while decreasing the base accordingly,
does not disturb the geometric invariant of a subtree. -/
theorem GeomOK_prepend (pre arr : List Proxy) (base : ℕ)
    (hpre : pre.length ≤ base) :
    ∀ t : PNode, GeomOK arr base t →
      (∀ s ∈ t.preorder, base ≤ s.firstCovered) →
      GeomOK (pre ++ arr) (base - pre.length) t
  | PNode.null, _, _ => trivial
  | PNode.node bx l r sd fi c, h, hr => by
    have hself := hr (PNode.node bx l r sd fi c) (by rw [PNode.preorder]; simp)
    rw [GeomOK] at h ⊢
    have hseg : segOf (pre ++ arr) (base - pre.length)
        (PNode.node bx l r sd fi c) =
        segOf arr base (PNode.node bx l r sd fi c) := by
      unfold segOf
      have harith :
          (PNode.node bx l r sd fi c).firstCovered - (base - pre.length) =
          pre.length +
            ((PNode.node bx l r sd fi c).firstCovered - base) := by omega
      rw [harith, List.drop_append]
    refine ⟨hseg ▸ h.1, hseg ▸ h.2.1, ?_, ?_⟩
    · exact GeomOK_prepend pre arr base hpre l h.2.2.1
        (fun s hs => hr s (by rw [PNode.preorder]; simp [hs]))
    · exact GeomOK_prepend pre arr base hpre r h.2.2.2
        (fun s hs => hr s (by rw [PNode.preorder]; simp [hs]))

/-- Unfolding `init_recursive` in the leaf case (`count <= leaf_cutoff`). -/
theorem init_recursive_leaf (lc thr : ℕ) (split : SplitFn) (fi : ℕ)
    (ps : List Proxy) (h : ps.length ≤ lc) :
    init_recursive lc thr split fi ps =
      (PNode.node (nodeBox ps) PNode.null PNode.null 0 fi ps.length,
       ps, fi + ps.length) := by
  rw [init_recursive]
  dsimp only
  rw [if_pos h]

/-- Unfolding `init_recursive` in the branch case; the only difference
between the sequential and the asynchronous path is the cursor passed to
the right recursion (`lres.2.2` versus the precomputed
`first_index + lps.length`). -/
theorem init_recursive_branch (lc thr : ℕ) (split : SplitFn) (fi : ℕ)
    (ps : List Proxy) (h : ¬ ps.length ≤ lc)
    (hg : 0 < (split (nodeBox ps) (nodeCenterBox ps)
            (argmaxQ (nodeCenterBox ps).diag) ps).2 ∧
          (split (nodeBox ps) (nodeCenterBox ps)
            (argmaxQ (nodeCenterBox ps).diag) ps).2 <
            (split (nodeBox ps) (nodeCenterBox ps)
              (argmaxQ (nodeCenterBox ps).diag) ps).1.length ∧
          (split (nodeBox ps) (nodeCenterBox ps)
            (argmaxQ (nodeCenterBox ps).diag) ps).1.length = ps.length) :
    init_recursive lc thr split fi ps =
      (let sp := split (nodeBox ps) (nodeCenterBox ps)
         (argmaxQ (nodeCenterBox ps).diag) ps
       let lps := sp.1.take sp.2
       let rps := sp.1.drop sp.2
       let lres := init_recursive lc thr split fi lps
       let rres := init_recursive lc thr split
         (if ps.length ≤ thr then lres.2.2 else fi + lps.length) rps
       (PNode.node (nodeBox ps) lres.1 rres.1
          (argmaxQ (nodeCenterBox ps).diag) 0 0,
        lres.2.1 ++ rres.2.1, rres.2.2)) := by
  rw [init_recursive]
  dsimp only
  rw [if_neg h, dif_pos hg]
  by_cases ht : ps.length ≤ thr
  · rw [if_pos ht, if_pos ht]
  · rw [if_neg ht, if_neg ht]

theorem leafList_branch (bx : Aabb) (l r : PNode) (sd fi : ℕ) :
    (PNode.node bx l r sd fi 0).leafList = l.leafList ++ r.leafList := by
  rw [PNode.leafList]
  simp

theorem leafList_leaf (bx : Aabb) (l r : PNode) (sd fi c : ℕ) (h : c ≠ 0) :
    (PNode.node bx l r sd fi c).leafList = [(fi, c)] := by
  rw [PNode.leafList]
  simp [h]

theorem firstCovered_branch (bx : Aabb) (l r : PNode) (sd fi : ℕ) :
    (PNode.node bx l r sd fi 0).firstCovered = l.firstCovered := by
  rw [PNode.firstCovered]
  simp

theorem firstCovered_leaf (bx : Aabb) (l r : PNode) (sd fi c : ℕ) (h : c ≠ 0) :
    (PNode.node bx l r sd fi c).firstCovered = fi := by
  rw [PNode.firstCovered]
  simp [h]

theorem coveredCount_branch (bx : Aabb) (l r : PNode) (sd fi : ℕ) :
    (PNode.node bx l r sd fi 0).coveredCount =
      l.coveredCount + r.coveredCount := by
  rw [PNode.coveredCount]
  simp

theorem coveredCount_leaf (bx : Aabb) (l r : PNode) (sd fi c : ℕ) (h : c ≠ 0) :
    (PNode.node bx l r sd fi c).coveredCount = c := by
  rw [PNode.coveredCount]
  simp [h]

/-- The bundle of invariants one call of `init_recursive` establishes:
final cursor = initial cursor + range length; the output range is a
permutation of the input range; leaf `(first_index, count)` ranges are
consecutive from the initial cursor; leaf counts sum to the range length;
the subtree covers exactly the input range; the node-shape invariant; the
geometric invariant against the output range; and every subtree's covered
range fits inside the call's range. -/
def BuildOK (lc fi : ℕ) (ps : List Proxy) (res : PNode × List Proxy × ℕ) : Prop :=
  res.2.2 = fi + ps.length ∧
  res.2.1.Perm ps ∧
  consecutiveFrom fi res.1.leafList = true ∧
  ((res.1.leafList).map Prod.snd).sum = ps.length ∧
  res.1.firstCovered = fi ∧
  res.1.coveredCount = ps.length ∧
  WFnode lc res.1 ∧
  GeomOK res.2.1 fi res.1 ∧
  (∀ s ∈ res.1.preorder,
    fi ≤ s.firstCovered ∧ s.firstCovered + s.coveredCount ≤ fi + ps.length)

/-- The master invariant of recursive construction, for any leaf cutoff
`≥ 1`, any spawn threshold (so both the sequential and the asynchronous
cursor path are covered) and any split strategy meeting `GoodSplit`. -/
theorem build_master (lc thr : ℕ) (hlc : 0 < lc) (split : SplitFn)
    (hsplit : GoodSplit split) :
    ∀ (n : ℕ) (ps : List Proxy), ps.length ≤ n → ps ≠ [] → ∀ fi : ℕ,
      BuildOK lc fi ps (init_recursive lc thr split fi ps) := by
  intro n
  induction n with
  | zero =>
    intro ps hle hne fi
    exact absurd (List.length_eq_zero.mp (Nat.le_zero.mp hle)) hne
  | succ n ih =>
    intro ps hle hne fi
    have hpos : 0 < ps.length := List.length_pos.mpr hne
    by_cases hleaf : ps.length ≤ lc
    · rw [init_recursive_leaf lc thr split fi ps hleaf]
      have hne0 : ps.length ≠ 0 := by omega
      refine ⟨rfl, List.Perm.refl ps, ?_, ?_, ?_, ?_, ?_, ?_, ?_⟩
      · rw [leafList_leaf _ _ _ _ _ _ hne0]
        simp [consecutiveFrom]
      · rw [leafList_leaf _ _ _ _ _ _ hne0]
        simp
      · exact firstCovered_leaf _ _ _ _ _ _ hne0
      · exact coveredCount_leaf _ _ _ _ _ _ hne0
      · rw [WFnode, if_neg hne0]
        exact ⟨rfl, rfl, hpos, hleaf⟩
      · rw [GeomOK]
        refine ⟨?_, ?_, trivial, trivial⟩
        · unfold segOf
          rw [firstCovered_leaf _ _ _ _ _ _ hne0,
            coveredCount_leaf _ _ _ _ _ _ hne0]
          rw [Nat.sub_self, List.drop_zero, List.take_length]
        · intro hc
          exact absurd hc hne0
      · intro s hs
        rw [PNode.preorder] at hs
        simp only [PNode.preorder, List.append_nil, List.mem_singleton] at hs
        subst hs
        rw [firstCovered_leaf _ _ _ _ _ _ hne0,
          coveredCount_leaf _ _ _ _ _ _ hne0]
        omega
    · have h2 : 2 ≤ ps.length := by omega
      obtain ⟨hperm, hk0, hklen⟩ := hsplit (nodeBox ps) (nodeCenterBox ps)
        (argmaxQ (nodeCenterBox ps).diag) ps h2
      have hlen_sp : (split (nodeBox ps) (nodeCenterBox ps)
          (argmaxQ (nodeCenterBox ps).diag) ps).1.length = ps.length :=
        hperm.length_eq
      have hg : 0 < (split (nodeBox ps) (nodeCenterBox ps)
            (argmaxQ (nodeCenterBox ps).diag) ps).2 ∧
          (split (nodeBox ps) (nodeCenterBox ps)
            (argmaxQ (nodeCenterBox ps).diag) ps).2 <
            (split (nodeBox ps) (nodeCenterBox ps)
              (argmaxQ (nodeCenterBox ps).diag) ps).1.length ∧
          (split (nodeBox ps) (nodeCenterBox ps)
            (argmaxQ (nodeCenterBox ps).diag) ps).1.length = ps.length :=
        ⟨hk0, by omega, hlen_sp⟩
      rw [init_recursive_branch lc thr split fi ps hleaf hg]
      dsimp only
      set sp := split (nodeBox ps) (nodeCenterBox ps)
        (argmaxQ (nodeCenterBox ps).diag) ps with hsp
      have hlps_len : (sp.1.take sp.2).length = sp.2 := by
        rw [List.length_take]
        omega
      have hrps_len : (sp.1.drop sp.2).length = ps.length - sp.2 := by
        rw [List.length_drop, hlen_sp]
      have hlps_ne : sp.1.take sp.2 ≠ [] := by
        intro hnil
        rw [hnil] at hlps_len
        simp at hlps_len
        omega
      have hrps_ne : sp.1.drop sp.2 ≠ [] := by
        intro hnil
        rw [hnil] at hrps_len
        simp at hrps_len
        omega
      have ihl := ih (sp.1.take sp.2) (by omega) hlps_ne fi
      have hcur : (if ps.length ≤ thr
          then (init_recursive lc thr split fi (sp.1.take sp.2)).2.2
          else fi + (sp.1.take sp.2).length) = fi + (sp.1.take sp.2).length := by
        split
        · exact ihl.1
        · rfl
      rw [hcur]
      have ihr := ih (sp.1.drop sp.2) (by omega) hrps_ne
        (fi + (sp.1.take sp.2).length)
      obtain ⟨hl1, hl2, hl3, hl4, hl5, hl6, hl7, hl8, hl9⟩ := ihl
      obtain ⟨hr1, hr2, hr3, hr4, hr5, hr6, hr7, hr8, hr9⟩ := ihr
      set L := init_recursive lc thr split fi (sp.1.take sp.2) with hL
      set R := init_recursive lc thr split (fi + (sp.1.take sp.2).length)
        (sp.1.drop sp.2) with hR
      have hsum_lens : (sp.1.take sp.2).length + (sp.1.drop sp.2).length =
          ps.length := by omega
      have harr_perm : (L.2.1 ++ R.2.1).Perm ps := by
        refine List.Perm.trans (hl2.append hr2) ?_
        rw [List.take_append_drop]
        exact hperm
      have harr_len : (L.2.1 ++ R.2.1).length = ps.length := harr_perm.length_eq
      have hL21_len : L.2.1.length = (sp.1.take sp.2).length := hl2.length_eq
      have hR21_len : R.2.1.length = (sp.1.drop sp.2).length := hr2.length_eq
      refine ⟨?_, harr_perm, ?_, ?_, ?_, ?_, ?_, ?_, ?_⟩
      · rw [hr1]
        omega
      · rw [leafList_branch, consecutiveFrom_append, hl3, hl4]
        simpa using hr3
      · rw [leafList_branch]
        rw [List.map_append, List.sum_append, hl4, hr4]
        omega
      · rw [firstCovered_branch]
        exact hl5
      · rw [coveredCount_branch, hl6, hr6]
        omega
      · rw [WFnode, if_pos rfl]
        exact ⟨init_recursive_ne_null lc thr split fi _,
          init_recursive_ne_null lc thr split _ _, hl7, hr7⟩
      · rw [GeomOK]
        have hseg_all : segOf (L.2.1 ++ R.2.1) fi
            (PNode.node (nodeBox ps) L.1 R.1
              (argmaxQ (nodeCenterBox ps).diag) 0 0) = L.2.1 ++ R.2.1 := by
          unfold segOf
          rw [firstCovered_branch, coveredCount_branch, hl5, hl6, hr6,
            Nat.sub_self, List.drop_zero, hsum_lens, ← harr_len,
            List.take_length]
        refine ⟨?_, ?_, ?_, ?_⟩
        · rw [hseg_all]
          exact (nodeBox_perm harr_perm).symm
        · intro _
          rw [hseg_all, nodeCenterBox_perm harr_perm]
        · refine GeomOK_append_right L.2.1 R.2.1 fi L.1 hl8 ?_
          intro s hs
          have h9 := hl9 s hs
          exact ⟨h9.1, by omega⟩
        · have hpre_le : L.2.1.length ≤ fi + (sp.1.take sp.2).length := by
            omega
          have hgr := GeomOK_prepend L.2.1 R.2.1
            (fi + (sp.1.take sp.2).length) hpre_le R.1 hr8
            (fun s hs => (hr9 s hs).1)
          have hbase : fi + (sp.1.take sp.2).length - L.2.1.length = fi := by
            omega
          rwa [hbase] at hgr
      · intro s hs
        rw [PNode.preorder] at hs
        simp only [List.mem_cons, List.mem_append] at hs
        rcases hs with hs | hs | hs
        · subst hs
          rw [firstCovered_branch, coveredCount_branch, hl5, hl6, hr6]
          omega
        · have h9 := hl9 s hs
          exact ⟨h9.1, by omega⟩
        · have h9 := hr9 s hs
          exact ⟨by omega, by omega⟩

/-! ## Flattening: correspondence between the pointer tree and the array -/

/-- The `left` field of a node (null pointer for null). -/
def PNode.nleft : PNode → PNode
  | PNode.null => PNode.null
  | PNode.node _ l _ _ _ _ => l

/-- The `right` field of a node (null pointer for null). -/
def PNode.nright : PNode → PNode
  | PNode.null => PNode.null
  | PNode.node _ _ r _ _ _ => r

/-- The `count` field of a node (0 for null). -/
def PNode.ncount : PNode → ℕ
  | PNode.null => 0
  | PNode.node _ _ _ _ _ c => c

/-- The `first_index` field of a node (0 for null). -/
def PNode.nfirst : PNode → ℕ
  | PNode.null => 0
  | PNode.node _ _ _ _ fi _ => fi

/-- The `split_dim` field of a node (0 for null). -/
def PNode.nsplit : PNode → ℕ
  | PNode.null => 0
  | PNode.node _ _ _ sd _ _ => sd

/-- The linear node a pointer node flattens to, expressed through the
preorder size of its left subtree (for a well-formed tree this is the
number of array slots the left subtree occupies). -/
def toLin : PNode → LinearNode
  | PNode.null => ⟨⟨[], []⟩, 0, 0, 0⟩
  | PNode.node bx l _ sd fi c =>
    if c = 0 then ⟨bx, (1 + l.preorder.length) % 2 ^ 32, 0, sd % 2 ^ 8⟩
    else ⟨bx, fi % 2 ^ 32, c % 2 ^ 8, 0⟩

/-- The flattened array always has exactly one node per branch plus one
per leaf (the counts tallied by the atomic counters). -/
theorem linear_length : ∀ t : PNode,
    (linear_init_recursive t).length = t.branches + t.leafNodes
  | PNode.null => rfl
  | PNode.node bx l r sd fi c => by
    rw [linear_init_recursive, PNode.branches, PNode.leafNodes]
    by_cases hc : c = 0
    · rw [if_pos hc, if_pos hc, if_pos hc]
      simp only [List.length_cons, List.length_append]
      rw [linear_length l, linear_length r]
      omega
    · rw [if_neg hc, if_neg hc, if_neg hc]
      simp

theorem preorder_ne_nil (bx : Aabb) (l r : PNode) (sd fi c : ℕ) :
    (PNode.node bx l r sd fi c).preorder =
      PNode.node bx l r sd fi c :: (l.preorder ++ r.preorder) := by
  rw [PNode.preorder]

/-- On a well-formed tree, flattening is exactly `toLin` mapped over the
preorder traversal: the array order is the depth-first left-first
preorder of the pointer tree. -/
theorem linear_eq_map_toLin (lc : ℕ) :
    ∀ t : PNode, WFnode lc t →
      linear_init_recursive t = t.preorder.map toLin
  | PNode.null, _ => rfl
  | PNode.node bx l r sd fi c, hwf => by
    rw [WFnode] at hwf
    by_cases hc : c = 0
    · rw [if_pos hc] at hwf
      subst hc
      rw [linear_init_recursive]
      simp only [if_pos rfl, preorder_ne_nil, List.map_cons, List.map_append]
      rw [linear_eq_map_toLin lc l hwf.2.2.1, linear_eq_map_toLin lc r hwf.2.2.2]
      rw [toLin, if_pos rfl]
      simp
    · rw [if_neg hc] at hwf
      obtain ⟨hl, hr, _, _⟩ := hwf
      subst hl
      subst hr
      rw [linear_init_recursive, if_neg hc, preorder_ne_nil]
      simp only [PNode.preorder, List.append_nil, List.map_cons, List.map_nil]
      rw [toLin, if_neg hc]

/-- Every member of a well-formed tree's preorder is itself well-formed. -/
theorem WFnode_preorder (lc : ℕ) :
    ∀ t : PNode, WFnode lc t → ∀ s ∈ t.preorder, WFnode lc s
  | PNode.null, _, s, hs => by
    rw [PNode.preorder] at hs
    exact absurd hs (List.not_mem_nil s)
  | PNode.node bx l r sd fi c, hwf, s, hs => by
    rw [preorder_ne_nil] at hs
    simp only [List.mem_cons, List.mem_append] at hs
    rcases hs with hs | hs | hs
    · subst hs
      exact hwf
    · rw [WFnode] at hwf
      by_cases hc : c = 0
      · rw [if_pos hc] at hwf
        exact WFnode_preorder lc l hwf.2.2.1 s hs
      · rw [if_neg hc] at hwf
        rw [hwf.1, PNode.preorder] at hs
        exact absurd hs (List.not_mem_nil s)
    · rw [WFnode] at hwf
      by_cases hc : c = 0
      · rw [if_pos hc] at hwf
        exact WFnode_preorder lc r hwf.2.2.2 s hs
      · rw [if_neg hc] at hwf
        rw [hwf.2.1, PNode.preorder] at hs
        exact absurd hs (List.not_mem_nil s)

/-- The preorder list of the subtree rooted at preorder position `j` is a
contiguous block of the full preorder list starting at `j`. -/
theorem preorder_subtree_span :
    ∀ (t : PNode) (j : ℕ), j < t.preorder.length →
      ∃ rest : List PNode,
        t.preorder.drop j =
          (t.preorder.getD j PNode.null).preorder ++ rest
  | PNode.null, j, hj => by
    rw [PNode.preorder] at hj
    simp at hj
  | PNode.node bx l r sd fi c, j, hj => by
    match j with
    | 0 =>
      refine ⟨[], ?_⟩
      rw [List.drop_zero, List.append_nil, preorder_ne_nil,
        List.getD_cons_zero, preorder_ne_nil]
    | Nat.succ j' =>
      rw [preorder_ne_nil] at hj ⊢
      rw [List.drop_succ_cons, List.getD_cons_succ]
      simp only [List.length_cons, List.length_append] at hj
      by_cases hjl : j' < l.preorder.length
      · obtain ⟨rest, hrest⟩ := preorder_subtree_span l j' hjl
        refine ⟨rest ++ r.preorder, ?_⟩
        rw [List.drop_append_of_le_length (le_of_lt hjl),
          List.getD_append _ _ _ _ hjl, hrest, List.append_assoc]
      · have hjr : j' - l.preorder.length < r.preorder.length := by omega
        obtain ⟨rest, hrest⟩ := preorder_subtree_span r _ hjr
        refine ⟨rest, ?_⟩
        rw [List.getD_append_right _ _ _ _ (by omega)]
        rw [show j' = l.preorder.length + (j' - l.preorder.length) by omega,
          List.drop_append]
        rw [show l.preorder.length + (j' - l.preorder.length) -
          l.preorder.length = j' - l.preorder.length by omega]
        exact hrest

theorem preorder_mem_ne_null :
    ∀ (t : PNode) (s : PNode), s ∈ t.preorder → s ≠ PNode.null
  | PNode.null, s, hs => by
    rw [PNode.preorder] at hs
    exact absurd hs (List.not_mem_nil s)
  | PNode.node bx l r sd fi c, s, hs => by
    rw [preorder_ne_nil] at hs
    simp only [List.mem_cons, List.mem_append] at hs
    rcases hs with hs | hs | hs
    · subst hs
      simp
    · exact preorder_mem_ne_null l s hs
    · exact preorder_mem_ne_null r s hs

theorem preorder_length_pos (t : PNode) (h : t ≠ PNode.null) :
    0 < t.preorder.length := by
  cases t with
  | null => exact absurd rfl h
  | node bx l r sd fi c =>
    rw [preorder_ne_nil]
    simp

theorem preorder_getD_zero (t : PNode) (h : t ≠ PNode.null) :
    t.preorder.getD 0 PNode.null = t := by
  cases t with
  | null => exact absurd rfl h
  | node bx l r sd fi c =>
    rw [preorder_ne_nil, List.getD_cons_zero]

theorem getD_mem_of_lt {l : List PNode} {j : ℕ} (hj : j < l.length) :
    l.getD j PNode.null ∈ l := by
  rw [List.getD_eq_getElem _ _ hj]
  exact List.getElem_mem hj

/-- Geometric tightness, read off node by node: every node's box equals
the surrounding box of its covered proxy segment. -/
theorem GeomOK_nbox_forall (arr : List Proxy) (base : ℕ) :
    ∀ t : PNode, GeomOK arr base t →
      ∀ s ∈ t.preorder, s.nbox = nodeBox (segOf arr base s)
  | PNode.null, _, s, hs => by
    rw [PNode.preorder] at hs
    exact absurd hs (List.not_mem_nil s)
  | PNode.node bx l r sd fi c, hg, s, hs => by
    rw [preorder_ne_nil] at hs
    rw [GeomOK] at hg
    simp only [List.mem_cons, List.mem_append] at hs
    rcases hs with hs | hs | hs
    · subst hs
      rw [PNode.nbox]
      exact hg.1
    · exact GeomOK_nbox_forall arr base l hg.2.2.1 s hs
    · exact GeomOK_nbox_forall arr base r hg.2.2.2 s hs

/-- The split-dimension invariant, read off node by node: every branch's
split dimension is the argmax extent axis of its segment's centers. -/
theorem GeomOK_split_forall (arr : List Proxy) (base : ℕ) :
    ∀ t : PNode, GeomOK arr base t →
      ∀ s ∈ t.preorder, s.ncount = 0 →
        s.nsplit = argmaxQ (nodeCenterBox (segOf arr base s)).diag
  | PNode.null, _, s, hs, _ => by
    rw [PNode.preorder] at hs
    exact absurd hs (List.not_mem_nil s)
  | PNode.node bx l r sd fi c, hg, s, hs, hc => by
    rw [preorder_ne_nil] at hs
    rw [GeomOK] at hg
    simp only [List.mem_cons, List.mem_append] at hs
    rcases hs with hs | hs | hs
    · subst hs
      rw [PNode.ncount] at hc
      rw [PNode.nsplit]
      exact hg.2.1 hc
    · exact GeomOK_split_forall arr base l hg.2.2.1 s hs hc
    · exact GeomOK_split_forall arr base r hg.2.2.2 s hs hc

theorem leafList_length : ∀ t : PNode, t.leafList.length = t.leafNodes
  | PNode.null => rfl
  | PNode.node bx l r sd fi c => by
    rw [PNode.leafList, PNode.leafNodes]
    by_cases hc : c = 0
    · rw [if_pos hc, if_pos hc, List.length_append,
        leafList_length l, leafList_length r]
    · rw [if_neg hc, if_neg hc]
      rfl

theorem leafList_counts (lc : ℕ) :
    ∀ t : PNode, WFnode lc t → ∀ p ∈ t.leafList, 1 ≤ p.2 ∧ p.2 ≤ lc
  | PNode.null, _, p, hp => by
    rw [PNode.leafList] at hp
    exact absurd hp (List.not_mem_nil p)
  | PNode.node bx l r sd fi c, hwf, p, hp => by
    rw [PNode.leafList] at hp
    rw [WFnode] at hwf
    by_cases hc : c = 0
    · rw [if_pos hc] at hp hwf
      rw [List.mem_append] at hp
      rcases hp with hp | hp
      · exact leafList_counts lc l hwf.2.2.1 p hp
      · exact leafList_counts lc r hwf.2.2.2 p hp
    · rw [if_neg hc] at hp hwf
      rw [List.mem_singleton] at hp
      subst hp
      exact ⟨hwf.2.2.1, hwf.2.2.2⟩

theorem length_le_sum_of_one_le :
    ∀ L : List (ℕ × ℕ), (∀ p ∈ L, 1 ≤ p.2) →
      L.length ≤ (L.map Prod.snd).sum
  | [], _ => le_refl 0
  | p :: L, h => by
    simp only [List.length_cons, List.map_cons, List.sum_cons]
    have h1 := h p (List.mem_cons_self p L)
    have h2 := length_le_sum_of_one_le L (fun q hq => h q (List.mem_cons_of_mem p hq))
    omega

theorem WF_branches_succ (lc : ℕ) :
    ∀ t : PNode, WFnode lc t → t ≠ PNode.null →
      t.branches + 1 = t.leafNodes
  | PNode.null, _, h => absurd rfl h
  | PNode.node bx l r sd fi c, hwf, _ => by
    rw [WFnode] at hwf
    rw [PNode.branches, PNode.leafNodes]
    by_cases hc : c = 0
    · rw [if_pos hc] at hwf ⊢
      rw [if_pos hc]
      have hl := WF_branches_succ lc l hwf.2.2.1 hwf.1
      have hr := WF_branches_succ lc r hwf.2.2.2 hwf.2.1
      omega
    · rw [if_neg hc, if_neg hc]

theorem preorder_length_eq (lc : ℕ) (t : PNode) (hwf : WFnode lc t) :
    t.preorder.length = t.branches + t.leafNodes := by
  have h := linear_eq_map_toLin lc t hwf
  have h2 := linear_length t
  rw [h, List.length_map] at h2
  exact h2

/-! ## `aabbtree::init` level facts -/

theorem buildProxies_length {α : Type} (func : α → Aabb) (vals : List α) :
    (buildProxies func vals).length = vals.length := by
  unfold buildProxies
  rw [List.length_map, List.enum_length]

theorem buildProxies_ne_nil {α : Type} (func : α → Aabb) (vals : List α)
    (h : vals ≠ []) : buildProxies func vals ≠ [] := by
  intro hnil
  have := buildProxies_length func vals
  rw [hnil] at this
  exact h (List.length_eq_zero.mp this.symm)

theorem buildProxies_map_value_index {α : Type} (func : α → Aabb)
    (vals : List α) :
    (buildProxies func vals).map Proxy.value_index =
      List.range vals.length := by
  unfold buildProxies
  rw [List.map_map]
  have : (Proxy.value_index ∘ fun iv : ℕ × α =>
      Proxy.mk (func iv.2) (func iv.2).center iv.1) = Prod.fst := rfl
  rw [this, List.enum_map_fst]

theorem buildProxies_getElem {α : Type} (func : α → Aabb) (vals : List α)
    (i : ℕ) (hi : i < (buildProxies func vals).length) :
    (buildProxies func vals)[i] =
      ⟨func (vals.get ⟨i, by rw [buildProxies_length] at hi; exact hi⟩),
       (func (vals.get
         ⟨i, by rw [buildProxies_length] at hi; exact hi⟩)).center,
       i⟩ := by
  unfold buildProxies
  unfold buildProxies at hi
  rw [List.getElem_map]
  congr 1 <;> rw [List.getElem_enum] <;> simp [List.get_eq_getElem]

/-- `aabbtree::init` on a nonempty range, unfolded. -/
theorem aabbtreeInit_nonempty {α : Type} (split : SplitFn)
    (t : AabbtreeState) (vals : List α) (func : α → Aabb) (h : vals ≠ []) :
    aabbtreeInit split t vals func =
      { leaf_cutoff := t.leaf_cutoff,
        root := (init_recursive t.leaf_cutoff asyncThreshold split 0
          (buildProxies func vals)).1,
        total_branches := (init_recursive t.leaf_cutoff asyncThreshold split 0
          (buildProxies func vals)).1.branches,
        total_leaves := (init_recursive t.leaf_cutoff asyncThreshold split 0
          (buildProxies func vals)).1.leafNodes,
        proxies := (init_recursive t.leaf_cutoff asyncThreshold split 0
          (buildProxies func vals)).2.1 } := by
  unfold aabbtreeInit
  rw [if_neg (by
    intro hlt
    exact h (List.length_eq_zero.mp (by omega)))]
  rfl

theorem WFnode_leaf_facts (lc : ℕ) (s : PNode) (h : WFnode lc s)
    (hs : s ≠ PNode.null) (hc : s.ncount ≠ 0) :
    1 ≤ s.ncount ∧ s.ncount ≤ lc ∧ s.coveredCount = s.ncount := by
  cases s with
  | null => exact absurd rfl hs
  | node bx l r sd fi c =>
    rw [PNode.ncount] at hc ⊢
    rw [WFnode, if_neg hc] at h
    exact ⟨h.2.2.1, h.2.2.2, coveredCount_leaf bx l r sd fi c hc⟩

/-- In the preorder array of a well-formed tree, the left child of the
branch `s` at position `j` sits at position `j + 1`, and its right child
at position `j + 1 + (size of the left subtree)`. -/
theorem preorder_branch_slots (lc : ℕ) (t s : PNode) (hwf : WFnode lc t)
    (j : ℕ) (hj : j < t.preorder.length)
    (hs : t.preorder.getD j PNode.null = s) (hbr : s.ncount = 0) :
    t.preorder.getD (j + 1) PNode.null = s.nleft ∧
    t.preorder.getD (j + 1 + s.nleft.preorder.length) PNode.null = s.nright ∧
    s.preorder.length =
      1 + s.nleft.preorder.length + s.nright.preorder.length ∧
    j + s.preorder.length ≤ t.preorder.length := by
  obtain ⟨rest, hrest⟩ := preorder_subtree_span t j hj
  rw [hs] at hrest
  have hmem : s ∈ t.preorder := by
    rw [← hs]
    exact getD_mem_of_lt hj
  have hsnn := preorder_mem_ne_null t s hmem
  have hwfs := WFnode_preorder lc t hwf s hmem
  have hgetD_drop : ∀ k, j + k < t.preorder.length →
      t.preorder.getD (j + k) PNode.null =
        (t.preorder.drop j).getD k PNode.null := by
    intro k hk
    rw [List.getD_eq_getElem _ _ hk,
      List.getD_eq_getElem _ _ (by rw [List.length_drop]; omega)]
    exact (List.getElem_drop t.preorder).symm
  have hslen : s.preorder.length + rest.length = t.preorder.length - j := by
    rw [← List.length_append, ← hrest, List.length_drop]
  cases s with
  | null => exact absurd rfl hsnn
  | node bx l r sd fi c =>
    rw [PNode.ncount] at hbr
    subst hbr
    rw [WFnode, if_pos rfl] at hwfs
    obtain ⟨hlnn, hrnn, hwl, hwr⟩ := hwfs
    have hlpos := preorder_length_pos l hlnn
    have hrpos := preorder_length_pos r hrnn
    rw [PNode.nleft, PNode.nright]
    have hs3 : (PNode.node bx l r sd fi 0).preorder.length =
        1 + l.preorder.length + r.preorder.length := by
      rw [preorder_ne_nil]
      simp only [List.length_cons, List.length_append]
      omega
    rw [hs3] at hslen
    refine ⟨?_, ?_, hs3, by omega⟩
    · rw [hgetD_drop 1 (by omega), hrest,
        List.getD_append _ _ _ 1 (by rw [hs3]; omega),
        preorder_ne_nil, List.getD_cons_succ,
        List.getD_append _ _ _ 0 hlpos]
      exact preorder_getD_zero l hlnn
    · rw [Nat.add_assoc, hgetD_drop (1 + l.preorder.length) (by omega), hrest,
        List.getD_append _ _ _ _ (by rw [hs3]; omega),
        preorder_ne_nil, Nat.add_comm 1 l.preorder.length,
        List.getD_cons_succ,
        List.getD_append_right _ _ _ _ (le_refl _), Nat.sub_self]
      exact preorder_getD_zero r hrnn

/-! ## Sample data for concrete witnesses -/

/-- Five proper 2-dimensional boxes with distinct centers. -/
def wVals : List Aabb :=
  [⟨[0, 0], [1, 1]⟩, ⟨[2, 0], [3, 1]⟩, ⟨[4, 0], [5, 1]⟩,
   ⟨[6, 0], [7, 1]⟩, ⟨[8, 0], [9, 1]⟩]

/-- A default proxy value (used only as a `getD` fallback). -/
def proxyDefault : Proxy := ⟨⟨[], []⟩, [], 0⟩

/-- A default linear node value (used only as a `getD` fallback). -/
def linDefault : LinearNode := ⟨⟨[], []⟩, 0, 0, 0⟩

/-! ## The claims -/

/-- **C1**: for every built tree over `n ≥ 1` input proxies, the leaves
visited in depth-first left-to-right order have `(first_index, count)`
ranges that exactly partition `[0, n)`: the first leaf starts at 0, each
subsequent leaf starts where the previous one ended, and the counts sum
to `n`.  This holds for every spawn threshold — so both on the sequential
path and on the async path, whose left cursor is precomputed from the
pre-split sizes — and in particular for the tree `aabbtree::init` builds
with the source threshold 16384. -/
theorem C1_leaf_ranges_partition {α : Type} (split : SplitFn)
    (hsplit : GoodSplit split) (t : AabbtreeState)
    (hlc : 0 < t.leaf_cutoff) (vals : List α) (func : α → Aabb)
    (hne : vals ≠ []) :
    (∀ thr : ℕ,
      consecutiveFrom 0 ((init_recursive t.leaf_cutoff thr split 0
        (buildProxies func vals)).1.leafList) = true ∧
      (((init_recursive t.leaf_cutoff thr split 0
        (buildProxies func vals)).1.leafList).map Prod.snd).sum =
        vals.length) ∧
    consecutiveFrom 0 ((aabbtreeInit split t vals func).root.leafList) =
      true ∧
    (((aabbtreeInit split t vals func).root.leafList).map Prod.snd).sum =
      vals.length := by
  have hps := buildProxies_ne_nil func vals hne
  have hlen := buildProxies_length func vals
  have hmain : ∀ thr : ℕ,
      consecutiveFrom 0 ((init_recursive t.leaf_cutoff thr split 0
        (buildProxies func vals)).1.leafList) = true ∧
      (((init_recursive t.leaf_cutoff thr split 0
        (buildProxies func vals)).1.leafList).map Prod.snd).sum =
        vals.length := by
    intro thr
    have h := build_master t.leaf_cutoff thr hlc split hsplit
      (buildProxies func vals).length (buildProxies func vals) le_rfl hps 0
    refine ⟨h.2.2.1, ?_⟩
    rw [h.2.2.2.1, hlen]
  refine ⟨hmain, ?_, ?_⟩
  · rw [aabbtreeInit_nonempty split t vals func hne]
    exact (hmain asyncThreshold).1
  · rw [aabbtreeInit_nonempty split t vals func hne]
    exact (hmain asyncThreshold).2

theorem C1_witness :
    consecutiveFrom 0 ((init_recursive aabbtreeDefault.leaf_cutoff 0
      aabbtree_split_equal_counts 0
      (buildProxies id wVals)).1.leafList) = true ∧
    consecutiveFrom 0 ((aabbtreeInit aabbtree_split_equal_counts
      aabbtreeDefault wVals id).root.leafList) = true ∧
    (((aabbtreeInit aabbtree_split_equal_counts aabbtreeDefault wVals
      id).root.leafList).map Prod.snd).sum = wVals.length := by
  have h := C1_leaf_ranges_partition aabbtree_split_equal_counts
    goodSplit_equal_counts aabbtreeDefault (by decide) wVals id (by decide)
  exact ⟨(h.1 0).1, h.2.1, h.2.2⟩

/-- **C7**: initializing with an empty input range leaves the tree in the
empty state — null root, zero counters, empty proxy array — and this is
not an error; any prior state is discarded (and `clear` itself produces
the same state). -/
theorem C7_empty_init {α : Type} (split : SplitFn) (t : AabbtreeState)
    (func : α → Aabb) :
    aabbtreeInit split t ([] : List α) func =
      ⟨t.leaf_cutoff, PNode.null, 0, 0, []⟩ ∧
    aabbtreeClear t = ⟨t.leaf_cutoff, PNode.null, 0, 0, []⟩ := by
  exact ⟨rfl, rfl⟩

/-- **C8**: `init` produces one proxy per input element — the proxy at
initial position `i` holds `func(element i)`, that box's center, and
`value_index = i` — and since proxies are only ever permuted afterwards,
the multiset of `value_index` over the final proxy array is exactly
`{0, …, n-1}`. -/
theorem C8_proxy_construction {α : Type} (split : SplitFn)
    (hsplit : GoodSplit split) (t : AabbtreeState)
    (hlc : 0 < t.leaf_cutoff) (vals : List α) (func : α → Aabb) :
    (∀ (d : α) (i : ℕ), i < vals.length →
      (buildProxies func vals).getD i proxyDefault =
        ⟨func (vals.getD i d), (func (vals.getD i d)).center, i⟩) ∧
    (buildProxies func vals).map Proxy.value_index =
      List.range vals.length ∧
    ((aabbtreeInit split t vals func).proxies.map Proxy.value_index).Perm
      (List.range vals.length) := by
  refine ⟨?_, buildProxies_map_value_index func vals, ?_⟩
  · intro d i hi
    have hi' : i < (buildProxies func vals).length := by
      rw [buildProxies_length]
      exact hi
    rw [List.getD_eq_getElem _ _ hi', buildProxies_getElem func vals i hi',
      List.getD_eq_getElem _ _ hi]
    simp [List.get_eq_getElem]
  · by_cases hne : vals = []
    · subst hne
      exact List.Perm.refl _
    · rw [aabbtreeInit_nonempty split t vals func hne]
      have h := build_master t.leaf_cutoff asyncThreshold hlc split hsplit
        (buildProxies func vals).length (buildProxies func vals) le_rfl
        (buildProxies_ne_nil func vals hne) 0
      have hperm := h.2.1
      calc ((init_recursive t.leaf_cutoff asyncThreshold split 0
              (buildProxies func vals)).2.1.map Proxy.value_index).Perm
            ((buildProxies func vals).map Proxy.value_index) :=
              hperm.map Proxy.value_index
        _ = _ := by rw [buildProxies_map_value_index]

theorem C8_witness :
    (buildProxies id wVals).getD 2 proxyDefault =
      ⟨wVals.getD 2 ⟨[], []⟩, (wVals.getD 2 ⟨[], []⟩).center, 2⟩ ∧
    (buildProxies id wVals).map Proxy.value_index =
      List.range wVals.length ∧
    ((aabbtreeInit aabbtree_split_equal_counts aabbtreeDefault wVals
      id).proxies.map Proxy.value_index).Perm
      (List.range wVals.length) := by
  have h := C8_proxy_construction aabbtree_split_equal_counts
    goodSplit_equal_counts aabbtreeDefault (by decide) wVals id
  exact ⟨h.1 ⟨[], []⟩ 2 (by decide), h.2.1, h.2.2⟩

/-- **C2**: every node's box of a built tree is exactly (not merely a
superset of) the surrounding box of the boxes of the proxies reachable
from it — the contiguous segment of the final proxy array its subtree
covers — given every input box is non-degenerate. -/
theorem C2_boxes_tight {α : Type} (split : SplitFn)
    (hsplit : GoodSplit split) (t : AabbtreeState)
    (hlc : 0 < t.leaf_cutoff) (vals : List α) (func : α → Aabb)
    (hne : vals ≠ [])
    (hproper : ∀ v ∈ vals, (func v).strictlyProper = true) :
    ∀ s ∈ (aabbtreeInit split t vals func).root.preorder,
      s.nbox =
        nodeBox (segOf (aabbtreeInit split t vals func).proxies 0 s) := by
  rw [aabbtreeInit_nonempty split t vals func hne]
  have h := build_master t.leaf_cutoff asyncThreshold hlc split hsplit
    (buildProxies func vals).length (buildProxies func vals) le_rfl
    (buildProxies_ne_nil func vals hne) 0
  exact GeomOK_nbox_forall _ 0 _ h.2.2.2.2.2.2.2.1

theorem self_mem_preorder (t : PNode) (h : t ≠ PNode.null) :
    t ∈ t.preorder := by
  cases t with
  | null => exact absurd rfl h
  | node bx l r sd fi c =>
    rw [preorder_ne_nil]
    exact List.mem_cons_self _ _

theorem C2_witness :
    (aabbtreeInit aabbtree_split_equal_counts aabbtreeDefault wVals
      id).root.nbox =
      nodeBox (segOf (aabbtreeInit aabbtree_split_equal_counts
        aabbtreeDefault wVals id).proxies 0
        (aabbtreeInit aabbtree_split_equal_counts aabbtreeDefault wVals
          id).root) := by
  refine C2_boxes_tight aabbtree_split_equal_counts goodSplit_equal_counts
    aabbtreeDefault (by decide) wVals id (by decide) (by decide) _ ?_
  apply self_mem_preorder
  rw [aabbtreeInit_nonempty aabbtree_split_equal_counts aabbtreeDefault
    wVals id (by decide)]
  exact init_recursive_ne_null _ _ _ _ _

/-- **C6**: every node of a built tree is well-formed as exactly one of
branch or leaf, discriminated by `count == 0`: a branch has two non-null
children, `count` 0 and `split_dim` the axis of maximum extent of the
box of centers of its covered sub-range; a leaf has null children and
`1 ≤ count ≤ leaf_cutoff`. -/
theorem C6_node_shape {α : Type} (split : SplitFn)
    (hsplit : GoodSplit split) (t : AabbtreeState)
    (hlc : 0 < t.leaf_cutoff) (vals : List α) (func : α → Aabb)
    (hne : vals ≠ []) :
    WFnode t.leaf_cutoff (aabbtreeInit split t vals func).root ∧
    (∀ s ∈ (aabbtreeInit split t vals func).root.preorder, s.ncount = 0 →
      s.nsplit = argmaxQ (nodeCenterBox
        (segOf (aabbtreeInit split t vals func).proxies 0 s)).diag ∧
      ∀ i < (nodeCenterBox
          (segOf (aabbtreeInit split t vals func).proxies 0 s)).diag.length,
        (nodeCenterBox (segOf (aabbtreeInit split t vals func).proxies 0
          s)).diag.getD i 0 ≤
        (nodeCenterBox (segOf (aabbtreeInit split t vals func).proxies 0
          s)).diag.getD s.nsplit 0) := by
  rw [aabbtreeInit_nonempty split t vals func hne]
  have h := build_master t.leaf_cutoff asyncThreshold hlc split hsplit
    (buildProxies func vals).length (buildProxies func vals) le_rfl
    (buildProxies_ne_nil func vals hne) 0
  refine ⟨h.2.2.2.2.2.2.1, ?_⟩
  intro s hs hc
  have hsd := GeomOK_split_forall _ 0 _ h.2.2.2.2.2.2.2.1 s hs hc
  refine ⟨hsd, ?_⟩
  intro i hi
  rw [hsd]
  exact argmaxQ_getD_ge _ i hi

theorem C6_witness :
    WFnode aabbtreeDefault.leaf_cutoff (aabbtreeInit
      aabbtree_split_equal_counts aabbtreeDefault wVals id).root := by
  exact (C6_node_shape aabbtree_split_equal_counts goodSplit_equal_counts
    aabbtreeDefault (by decide) wVals id (by decide)).1

/-- Whether the per-call assertions of `aabbtree::init_recursive` all
pass on a proxy sub-range: `assert(count)` (sampling.hpp:799) at entry,
and for a branch the split assertion
`assert(split && proxies.begin() <= split && proxies.end() > split)`
(sampling.hpp:830-832; the model additionally requires the rearranged
range to keep its length, which holds for any strategy returning a
permutation).  The C++ split assertion is non-strict at `begin`:
`split == begin` passes it, and the failure then surfaces one call
deeper as `assert(count)` on the empty left sub-range — which this
checker reports through the `length = 0` entry check.  The recursion is
structured on an explicit fuel so that it evaluates by kernel reduction;
every terminating construction recurses to strictly shorter ranges, so
`fuel = length + 1` (see `constructionAssertFree`) is always enough, and
exhausted fuel (reachable only through a non-decreasing split, itself a
failing run) also reports failure.  The spawn threshold plays no role:
the sequential and async paths make the same recursive calls with the
same sub-ranges. -/
def assertsOKFuel (lc : ℕ) (split : SplitFn) : ℕ → List Proxy → Bool
  | 0, _ => false
  | fuel + 1, ps =>
    if ps.length = 0 then false
    else if ps.length ≤ lc then true
    else
      let sp := split (nodeBox ps) (nodeCenterBox ps)
        (argmaxQ (nodeCenterBox ps).diag) ps
      if sp.2 < sp.1.length ∧ sp.1.length = ps.length then
        assertsOKFuel lc split fuel (sp.1.take sp.2) &&
        assertsOKFuel lc split fuel (sp.1.drop sp.2)
      else false

/-- All construction assertions pass for a build over this proxy range
(`assertsOKFuel` with the always-sufficient fuel `length + 1`). -/
def constructionAssertFree (lc : ℕ) (split : SplitFn)
    (ps : List Proxy) : Bool :=
  assertsOKFuel lc split (ps.length + 1) ps

/-- With a positive leaf cutoff and a `GoodSplit` strategy, every
construction assertion passes on every nonempty range. -/
theorem assertsOKFuel_true (lc : ℕ) (hlc : 0 < lc) (split : SplitFn)
    (hsplit : GoodSplit split) :
    ∀ (fuel : ℕ) (ps : List Proxy), ps.length < fuel → ps ≠ [] →
      assertsOKFuel lc split fuel ps = true := by
  intro fuel
  induction fuel with
  | zero =>
    intro ps hlen
    omega
  | succ fuel ih =>
    intro ps hlen hne
    have h0 : ps.length ≠ 0 := fun h => hne (List.length_eq_zero.mp h)
    rw [assertsOKFuel]
    dsimp only
    rw [if_neg h0]
    by_cases hleaf : ps.length ≤ lc
    · rw [if_pos hleaf]
    · rw [if_neg hleaf]
      have h2 : 2 ≤ ps.length := by omega
      obtain ⟨hperm, hk0, hklen⟩ := hsplit (nodeBox ps) (nodeCenterBox ps)
        (argmaxQ (nodeCenterBox ps).diag) ps h2
      have hlen_sp : (split (nodeBox ps) (nodeCenterBox ps)
          (argmaxQ (nodeCenterBox ps).diag) ps).1.length = ps.length :=
        hperm.length_eq
      rw [if_pos ⟨by omega, hlen_sp⟩]
      have htake : ((split (nodeBox ps) (nodeCenterBox ps)
          (argmaxQ (nodeCenterBox ps).diag) ps).1.take
          (split (nodeBox ps) (nodeCenterBox ps)
            (argmaxQ (nodeCenterBox ps).diag) ps).2).length =
          (split (nodeBox ps) (nodeCenterBox ps)
            (argmaxQ (nodeCenterBox ps).diag) ps).2 := by
        rw [List.length_take]
        omega
      have hdrop : ((split (nodeBox ps) (nodeCenterBox ps)
          (argmaxQ (nodeCenterBox ps).diag) ps).1.drop
          (split (nodeBox ps) (nodeCenterBox ps)
            (argmaxQ (nodeCenterBox ps).diag) ps).2).length =
          ps.length - (split (nodeBox ps) (nodeCenterBox ps)
            (argmaxQ (nodeCenterBox ps).diag) ps).2 := by
        rw [List.length_drop, hlen_sp]
      rw [ih _ (by omega) (by
          intro hnil
          rw [hnil] at htake
          simp at htake
          omega),
        ih _ (by omega) (by
          intro hnil
          rw [hnil] at hdrop
          simp at hdrop
          omega)]
      rfl

/-- A single strictly proper box: the claim's preconditions. -/
def wValOne : List Aabb := [⟨[0, 0], [2, 2]⟩]

/-- **C9, counterexample**: the claim's stated preconditions —
`leaf_cutoff < 256` and every extracted box non-degenerate — do not
rule out `leaf_cutoff = 0`, which the constructor's
`assert(leaf_cutoff_ < 256)` accepts; yet on a single proper box the
equal-count split of the 1-element range returns `begin + 1/2 = begin`
(passing the non-strict split assertion), and the left recursion on the
empty sub-range trips `assert(count)` at sampling.hpp:799.  So an
assertion in construction fires even though the stated preconditions
hold. -/
theorem C9_counterexample :
    (0 : ℕ) < 256 ∧
    wValOne.all (fun v => v.strictlyProper) = true ∧
    constructionAssertFree 0 aabbtree_split_equal_counts
      (buildProxies id wValOne) = false := by
  refine ⟨by decide, by decide, by decide⟩

/-- **C9, amended**: construction fails fast by assertion exactly on
precondition violation, where the preconditions must include
`1 ≤ leaf_cutoff` (the claim's original preconditions admit
`leaf_cutoff = 0`, under which `assert(count)` fires — see
`C9_counterexample`): the leaf-cutoff constructor's check succeeds
exactly when `leaf_cutoff < 256`; the proxy-loop box assertion of
`init` passes exactly when every extracted box is strictly proper, in
which case the checked initialization returns the normal result; and
under the amended preconditions (proper boxes, `leaf_cutoff < 256`,
`1 ≤ leaf_cutoff`) no assertion in construction fires: every recursive
call sees a nonempty range with an in-range split, and the final cursor
assertion `assert(first_index == proxies_.size())` holds. -/
theorem C9_assertions {α : Type} (split : SplitFn) (t : AabbtreeState)
    (lc : ℕ) (vals : List α) (func : α → Aabb) :
    ((aabbtreeMake lc).isSome = decide (lc < 256)) ∧
    ((aabbtreeInitChecked split t vals func).isSome =
      vals.all (fun v => (func v).strictlyProper)) ∧
    (vals.all (fun v => (func v).strictlyProper) = true →
      aabbtreeInitChecked split t vals func =
        some (aabbtreeInit split t vals func)) ∧
    (GoodSplit split → 0 < t.leaf_cutoff → vals ≠ [] →
      constructionAssertFree t.leaf_cutoff split
        (buildProxies func vals) = true ∧
      (init_recursive t.leaf_cutoff asyncThreshold split 0
        (buildProxies func vals)).2.2 = (buildProxies func vals).length) := by
  refine ⟨?_, ?_, ?_, ?_⟩
  · by_cases h : lc < 256 <;> simp [aabbtreeMake, h]
  · unfold aabbtreeInitChecked
    by_cases h : vals.all (fun v => (func v).strictlyProper) = true
    · rw [if_pos h, h]
      rfl
    · rw [if_neg h]
      simp only [Option.isSome_none]
      exact (Bool.not_eq_true _).mp (fun hcon => h hcon) |>.symm
  · intro h
    unfold aabbtreeInitChecked
    rw [if_pos h]
  · intro hsplit hlc hne
    constructor
    · exact assertsOKFuel_true t.leaf_cutoff hlc split hsplit _ _
        (by omega) (buildProxies_ne_nil func vals hne)
    · have h := build_master t.leaf_cutoff asyncThreshold hlc split hsplit
        (buildProxies func vals).length (buildProxies func vals) le_rfl
        (buildProxies_ne_nil func vals hne) 0
      rw [h.1]
      omega

theorem C9_witness :
    (aabbtreeMake 8).isSome = decide (8 < 256) ∧
    aabbtreeInitChecked aabbtree_split_equal_counts aabbtreeDefault wVals
      id = some (aabbtreeInit aabbtree_split_equal_counts aabbtreeDefault
        wVals id) ∧
    constructionAssertFree aabbtreeDefault.leaf_cutoff
      aabbtree_split_equal_counts (buildProxies id wVals) = true ∧
    (init_recursive aabbtreeDefault.leaf_cutoff asyncThreshold
      aabbtree_split_equal_counts 0 (buildProxies id wVals)).2.2 =
      (buildProxies id wVals).length := by
  have h := C9_assertions aabbtree_split_equal_counts aabbtreeDefault 8
    wVals id
  have hc := h.2.2.2 goodSplit_equal_counts (by decide) (by decide)
  exact ⟨h.1, h.2.2.1 (by decide), hc.1, hc.2⟩

/-- **C10**: a default-constructed tree uses leaf cutoff 8: construction
on it produces only leaves with `1 ≤ count ≤ 8`, and every sub-range of
more than 8 proxies (every node covering more than 8) is split into a
branch. -/
theorem C10_default_cutoff {α : Type} (split : SplitFn)
    (hsplit : GoodSplit split) (vals : List α) (func : α → Aabb)
    (hne : vals ≠ []) :
    aabbtreeDefault.leaf_cutoff = 8 ∧
    ∀ s ∈ (aabbtreeInit split aabbtreeDefault vals func).root.preorder,
      (s.ncount ≠ 0 → 1 ≤ s.ncount ∧ s.ncount ≤ 8) ∧
      (8 < s.coveredCount → s.ncount = 0) := by
  refine ⟨rfl, ?_⟩
  rw [aabbtreeInit_nonempty split aabbtreeDefault vals func hne]
  have h := build_master aabbtreeDefault.leaf_cutoff asyncThreshold
    (by norm_num [aabbtreeDefault]) split hsplit
    (buildProxies func vals).length (buildProxies func vals) le_rfl
    (buildProxies_ne_nil func vals hne) 0
  have hwf := h.2.2.2.2.2.2.1
  intro s hs
  have hwfs := WFnode_preorder _ _ hwf s hs
  have hsnn := preorder_mem_ne_null _ s hs
  constructor
  · intro hc
    have := WFnode_leaf_facts _ s hwfs hsnn hc
    exact ⟨this.1, this.2.1⟩
  · intro hgt
    by_contra hc
    have := WFnode_leaf_facts _ s hwfs hsnn hc
    have h8 : s.ncount ≤ 8 := this.2.1
    omega

theorem C10_witness :
    aabbtreeDefault.leaf_cutoff = 8 ∧
    (((aabbtreeInit aabbtree_split_equal_counts aabbtreeDefault wVals
        id).root.ncount ≠ 0 →
      1 ≤ (aabbtreeInit aabbtree_split_equal_counts aabbtreeDefault wVals
        id).root.ncount ∧
      (aabbtreeInit aabbtree_split_equal_counts aabbtreeDefault wVals
        id).root.ncount ≤ 8) ∧
     (8 < (aabbtreeInit aabbtree_split_equal_counts aabbtreeDefault wVals
        id).root.coveredCount →
      (aabbtreeInit aabbtree_split_equal_counts aabbtreeDefault wVals
        id).root.ncount = 0)) := by
  have h := C10_default_cutoff aabbtree_split_equal_counts
    goodSplit_equal_counts wVals id (by decide)
  refine ⟨h.1, h.2 _ ?_⟩
  apply self_mem_preorder
  rw [aabbtreeInit_nonempty aabbtree_split_equal_counts aabbtreeDefault
    wVals id (by decide)]
  exact init_recursive_ne_null _ _ _ _ _

/-- **C3**: the linearized tree built from a completed pointer tree has
exactly `total_branches + total_leaves` nodes, and its array order is the
depth-first left-first preorder of the pointer tree: every array node's
box matches, a leaf's `first_index`/`count` match, and for a branch the
left child occupies the next array slot while `right_offset` is the index
distance from the branch to the first node of its right subtree (the slot
`j + right_offset` holds the branch's right child).  The 32-bit
`right_offset`/`first_index` stores do not wrap because the proxy count
is below `2^31` and leaf counts are below 256. -/
theorem C3_flatten_equivalence {α : Type} (split : SplitFn)
    (hsplit : GoodSplit split) (t : AabbtreeState)
    (hlc : 0 < t.leaf_cutoff) (hlc256 : t.leaf_cutoff < 256)
    (vals : List α) (func : α → Aabb) (hne : vals ≠ [])
    (hsize : vals.length < 2 ^ 31)
    (T : AabbtreeState) (hT : T = aabbtreeInit split t vals func)
    (lin : List LinearNode) (hlin : lin = linear_aabbtree_ctor T)
    (pre : List PNode) (hpre : pre = T.root.preorder) :
    lin.length = T.total_branches + T.total_leaves ∧
    lin = pre.map toLin ∧
    ∀ j (hj : j < pre.length),
      (lin.getD j linDefault).box = (pre.getD j PNode.null).nbox ∧
      ((pre.getD j PNode.null).ncount ≠ 0 →
        (lin.getD j linDefault).count = (pre.getD j PNode.null).ncount ∧
        (lin.getD j linDefault).first_index =
          (pre.getD j PNode.null).nfirst) ∧
      ((pre.getD j PNode.null).ncount = 0 →
        (lin.getD j linDefault).count = 0 ∧
        pre.getD (j + 1) PNode.null = (pre.getD j PNode.null).nleft ∧
        (lin.getD j linDefault).right_offset =
          1 + (pre.getD j PNode.null).nleft.preorder.length ∧
        pre.getD (j + (lin.getD j linDefault).right_offset) PNode.null =
          (pre.getD j PNode.null).nright) := by
  subst hpre
  subst hlin
  subst hT
  rw [aabbtreeInit_nonempty split t vals func hne]
  have h := build_master t.leaf_cutoff asyncThreshold hlc split hsplit
    (buildProxies func vals).length (buildProxies func vals) le_rfl
    (buildProxies_ne_nil func vals hne) 0
  have hwf := h.2.2.2.2.2.2.1
  have hsum := h.2.2.2.1
  have h9 := h.2.2.2.2.2.2.2.2
  have hplen := buildProxies_length func vals
  set R1 := (init_recursive t.leaf_cutoff asyncThreshold split 0
    (buildProxies func vals)).1 with hR1
  have hmap : linear_init_recursive R1 = R1.preorder.map toLin :=
    linear_eq_map_toLin t.leaf_cutoff R1 hwf
  have hleaves_le : R1.leafNodes ≤ vals.length := by
    have h1 := leafList_length R1
    have h2 := length_le_sum_of_one_le R1.leafList
      (fun p hp => (leafList_counts t.leaf_cutoff R1 hwf p hp).1)
    rw [hsum, hplen] at h2
    omega
  have hpre_len : R1.preorder.length = R1.branches + R1.leafNodes :=
    preorder_length_eq t.leaf_cutoff R1 hwf
  have hR1nn : R1 ≠ PNode.null :=
    init_recursive_ne_null t.leaf_cutoff asyncThreshold split 0 _
  have hbl : R1.branches + 1 = R1.leafNodes :=
    WF_branches_succ t.leaf_cutoff R1 hwf hR1nn
  have h32 : (2 : ℕ) ^ 32 = 4294967296 := by norm_num
  have h31 : (2 : ℕ) ^ 31 = 2147483648 := by norm_num
  have hpre_small : R1.preorder.length < 2 ^ 32 := by omega
  refine ⟨?_, hmap, ?_⟩
  · unfold linear_aabbtree_ctor
    exact linear_length R1
  · intro j hj
    have hgetlin : (linear_aabbtree_ctor
        { leaf_cutoff := t.leaf_cutoff, root := R1,
          total_branches := R1.branches, total_leaves := R1.leafNodes,
          proxies := (init_recursive t.leaf_cutoff asyncThreshold split 0
            (buildProxies func vals)).2.1 }).getD j linDefault =
        toLin (R1.preorder.getD j PNode.null) := by
      show (linear_init_recursive R1).getD j linDefault = _
      rw [hmap, List.getD_eq_getElem _ _ (by rw [List.length_map]; exact hj),
        List.getElem_map, List.getD_eq_getElem _ _ hj]
    rw [hgetlin]
    have hmem := getD_mem_of_lt hj
    have hsnn := preorder_mem_ne_null R1 _ hmem
    have hwfs := WFnode_preorder t.leaf_cutoff R1 hwf _ hmem
    have hrange := h9 _ hmem
    have hslots := preorder_branch_slots t.leaf_cutoff R1
      (R1.preorder.getD j PNode.null) hwf j hj rfl
    revert hsnn hwfs hrange hslots
    cases hcase : R1.preorder.getD j PNode.null with
    | null =>
      intro h1 _; exact absurd rfl h1
    | node bx l r sd fi c =>
      intro hsnn hwfs hrange hslots
      by_cases hc : c = 0
      · subst hc
        have hsl := hslots rfl
        rw [toLin, if_pos rfl]
        have hbound : 1 + l.preorder.length < 2 ^ 32 := by
          have e3 := hsl.2.2.1
          have e4 := hsl.2.2.2
          rw [PNode.nleft] at e3
          omega
        refine ⟨rfl, ?_, ?_⟩
        · intro habs
          exact absurd rfl (by rw [PNode.ncount] at habs; exact habs)
        · intro _
          have hro : (1 + l.preorder.length) % 2 ^ 32 =
              1 + l.preorder.length := Nat.mod_eq_of_lt hbound
          refine ⟨rfl, ?_, ?_, ?_⟩
          · have := hsl.1
            rw [PNode.nleft] at this ⊢
            exact this
          · rw [LinearNode.right_offset]
            rw [PNode.nleft]
            exact hro
          · rw [LinearNode.right_offset]
            dsimp only
            rw [hro]
            have := hsl.2.1
            rw [PNode.nleft, PNode.nright] at this
            rw [PNode.nright, ← Nat.add_assoc]
            exact this
      · rw [toLin, if_neg hc]
        rw [WFnode, if_neg hc] at hwfs
        rw [firstCovered_leaf _ _ _ _ _ _ hc,
          coveredCount_leaf _ _ _ _ _ _ hc] at hrange
        rw [hplen] at hrange
        refine ⟨rfl, ?_, ?_⟩
        · intro _
          rw [PNode.ncount, PNode.nfirst, LinearNode.first_index]
          constructor
          · dsimp only
            have hcle : c ≤ t.leaf_cutoff := hwfs.2.2.2
            have : c < 2 ^ 8 := by
              have : (2 : ℕ) ^ 8 = 256 := by norm_num
              omega
            exact Nat.mod_eq_of_lt this
          · dsimp only
            have hc1 : 1 ≤ c := hwfs.2.2.1
            have : fi < 2 ^ 32 := by omega
            exact Nat.mod_eq_of_lt this
        · intro habs
          rw [PNode.ncount] at habs
          exact absurd habs hc

theorem C3_witness :
    (linear_aabbtree_ctor (aabbtreeInit aabbtree_split_equal_counts
      aabbtreeDefault wVals id)).length =
      (aabbtreeInit aabbtree_split_equal_counts aabbtreeDefault wVals
        id).total_branches +
      (aabbtreeInit aabbtree_split_equal_counts aabbtreeDefault wVals
        id).total_leaves ∧
    linear_aabbtree_ctor (aabbtreeInit aabbtree_split_equal_counts
      aabbtreeDefault wVals id) =
      (aabbtreeInit aabbtree_split_equal_counts aabbtreeDefault wVals
        id).root.preorder.map toLin := by
  have h := C3_flatten_equivalence aabbtree_split_equal_counts
    goodSplit_equal_counts aabbtreeDefault (by decide) (by decide) wVals id
    (by decide) (by decide) _ rfl _ rfl _ rfl
  exact ⟨h.1, h.2.1⟩

/-! ## The surface-area-heuristic sweeps against their specification -/

/-- The combination of a whole list of bins (union of the boxes, sum of
the counts), the specification-level form the sweeps are checked against. -/
def binsCombine (l : List BinT) : BinT :=
  l.foldl binUnion ((none : Option Aabb), 0)

/-- Specified value of `lsweep[i]`: the inclusive combination of
`bins[0..i]`. -/
def sahSpecLeft (bins : List BinT) (i : ℕ) : BinT :=
  binsCombine (bins.take (i + 1))

/-- Specified value of `rsweep[i]`: the combination of `bins[i+1..]`. -/
def sahSpecRight (bins : List BinT) (i : ℕ) : BinT :=
  binsCombine (bins.drop (i + 1))

theorem binUnion_id_left (b : BinT) :
    binUnion ((none : Option Aabb), 0) b = b := by
  obtain ⟨ob, n⟩ := b
  cases ob <;> simp [binUnion]

theorem binUnion_id_right (b : BinT) :
    binUnion b ((none : Option Aabb), 0) = b := by
  obtain ⟨ob, n⟩ := b
  cases ob <;> rfl

theorem binUnion_assoc (a b c : BinT) :
    binUnion (binUnion a b) c = binUnion a (binUnion b c) := by
  obtain ⟨oa, na⟩ := a
  obtain ⟨ob, nb⟩ := b
  obtain ⟨oc, nc⟩ := c
  cases oa <;> cases ob <;> cases oc <;>
    simp [binUnion, Aabb.union_assoc, Nat.add_assoc]

theorem foldl_binUnion_eq :
    ∀ (bs : List BinT) (x : BinT),
      bs.foldl binUnion x = binUnion x (binsCombine bs)
  | [], x => (binUnion_id_right x).symm
  | b :: bs, x => by
    rw [List.foldl_cons, foldl_binUnion_eq bs (binUnion x b)]
    rw [show binsCombine (b :: bs) = binUnion b (binsCombine bs) by
      unfold binsCombine
      rw [List.foldl_cons, binUnion_id_left, foldl_binUnion_eq bs b]
      rfl]
    rw [binUnion_assoc]

theorem binsCombine_cons (b : BinT) (bs : List BinT) :
    binsCombine (b :: bs) = binUnion b (binsCombine bs) := by
  unfold binsCombine
  rw [List.foldl_cons, binUnion_id_left, foldl_binUnion_eq bs b]
  rfl

theorem scanl_binUnion_getD :
    ∀ (bs : List BinT) (b : BinT) (i : ℕ), i ≤ bs.length →
      (List.scanl binUnion b bs).getD i ((none : Option Aabb), 0) =
        (bs.take i).foldl binUnion b
  | bs, b, 0, _ => by
    cases bs <;> rfl
  | [], b, Nat.succ i, h => by simp at h
  | x :: bs, b, Nat.succ i, h => by
    rw [List.scanl_cons]
    show (List.scanl binUnion (binUnion b x) bs).getD i _ = _
    rw [scanl_binUnion_getD bs (binUnion b x) i (by simpa using h)]
    rw [List.take_succ_cons, List.foldl_cons]

theorem suffixBins_length :
    ∀ bins : List BinT, (suffixBins bins).length = bins.length
  | [] => rfl
  | b :: bs => by
    have ih := suffixBins_length bs
    rw [suffixBins]
    cases hsb : suffixBins bs with
    | nil =>
      rw [hsb] at ih
      simp only [List.length_nil] at ih
      simp only [List.length_cons, List.length_nil]
      omega
    | cons s ss =>
      rw [hsb] at ih
      simp only [List.length_cons] at ih ⊢
      omega

theorem suffixBins_getD :
    ∀ (bins : List BinT) (i : ℕ), i < bins.length →
      (suffixBins bins).getD i ((none : Option Aabb), 0) =
        binsCombine (bins.drop i)
  | [], i, h => by simp at h
  | b :: bs, i, h => by
    rw [suffixBins]
    cases hsb : suffixBins bs with
    | nil =>
      have hlen := suffixBins_length bs
      rw [hsb] at hlen
      simp only [List.length_nil] at hlen
      have hbs : bs = [] := List.length_eq_zero.mp hlen.symm
      subst hbs
      simp only [List.length_cons, List.length_nil] at h
      have : i = 0 := by omega
      subst this
      rw [List.drop_zero, binsCombine_cons]
      show b = binUnion b (binsCombine [])
      rw [show binsCombine [] = ((none : Option Aabb), 0) from rfl,
        binUnion_id_right]
    | cons s ss =>
      match i with
      | 0 =>
        rw [List.getD_cons_zero, List.drop_zero, binsCombine_cons]
        have h0 := suffixBins_getD bs 0 (by
          have hlen := suffixBins_length bs
          rw [hsb] at hlen
          simp only [List.length_cons] at hlen
          omega)
        rw [hsb, List.getD_cons_zero, List.drop_zero] at h0
        rw [h0]
      | Nat.succ i' =>
        rw [List.getD_cons_succ, List.drop_succ_cons]
        have hi' : i' < bs.length := by
          simp only [List.length_cons] at h
          omega
        have := suffixBins_getD bs i' hi'
        rw [hsb] at this
        exact this

theorem lsweepOf_length (b : BinT) (bs : List BinT) :
    (lsweepOf (b :: bs)).length = bs.length := by
  rw [lsweepOf, List.length_dropLast, List.length_scanl]
  omega

theorem rsweepOf_length (bins : List BinT) :
    (rsweepOf bins).length = bins.length - 1 := by
  rw [rsweepOf, List.length_tail, suffixBins_length]

theorem lsweepOf_getD (bins : List BinT) (i : ℕ)
    (hi : i < bins.length - 1) :
    (lsweepOf bins).getD i ((none : Option Aabb), 0) =
      sahSpecLeft bins i := by
  cases bins with
  | nil => simp at hi
  | cons b bs =>
    simp only [List.length_cons] at hi
    have hlt : i < (List.scanl binUnion b bs).dropLast.length := by
      rw [List.length_dropLast, List.length_scanl]
      omega
    have hlt2 : i < (List.scanl binUnion b bs).length := by
      rw [List.length_scanl]
      omega
    have hscan := scanl_binUnion_getD bs b i (by omega)
    rw [List.getD_eq_getElem _ _ hlt2] at hscan
    rw [lsweepOf, List.getD_eq_getElem _ _ hlt, List.getElem_dropLast,
      hscan, sahSpecLeft, List.take_succ_cons, binsCombine_cons,
      foldl_binUnion_eq]

theorem rsweepOf_getD (bins : List BinT) (i : ℕ)
    (hi : i < bins.length - 1) :
    (rsweepOf bins).getD i ((none : Option Aabb), 0) =
      sahSpecRight bins i := by
  rw [rsweepOf, sahSpecRight]
  have hlen := suffixBins_length bins
  cases hsb : suffixBins bins with
  | nil =>
    rw [hsb] at hlen
    simp only [List.length_nil] at hlen
    omega
  | cons s ss =>
    rw [List.tail_cons]
    have := suffixBins_getD bins (i + 1) (by omega)
    rw [hsb, List.getD_cons_succ] at this
    exact this

theorem sahCosts_length (bins : List BinT) :
    (sahCosts bins).length = bins.length - 1 := by
  cases bins with
  | nil => rfl
  | cons b bs =>
    unfold sahCosts
    rw [List.length_zipWith, lsweepOf_length, rsweepOf_length]
    simp

theorem sahCosts_getD (bins : List BinT) (i : ℕ)
    (hi : i < bins.length - 1) :
    (sahCosts bins).getD i 0 =
      binSA (sahSpecLeft bins i).1 * ((sahSpecLeft bins i).2 : ℚ) +
      binSA (sahSpecRight bins i).1 * ((sahSpecRight bins i).2 : ℚ) := by
  have hlt : i < (sahCosts bins).length := by
    rw [sahCosts_length]
    exact hi
  rw [List.getD_eq_getElem _ _ hlt]
  unfold sahCosts at hlt ⊢
  rw [List.getElem_zipWith]
  have h1 : i < (lsweepOf bins).length := by
    rw [List.length_zipWith] at hlt
    omega
  have h2 : i < (rsweepOf bins).length := by
    rw [List.length_zipWith] at hlt
    omega
  have e1 : (lsweepOf bins)[i] = sahSpecLeft bins i := by
    rw [← lsweepOf_getD bins i hi, List.getD_eq_getElem _ _ h1]
  have e2 : (rsweepOf bins)[i] = sahSpecRight bins i := by
    rw [← rsweepOf_getD bins i hi, List.getD_eq_getElem _ _ h2]
  simp only [e1, e2]

theorem binFold_length (Nbins : ℕ) (cenmin cenmax : ℚ) (split_dim : ℕ)
    (bins : List BinT) (p : Proxy) :
    (binFold Nbins cenmin cenmax split_dim bins p).length = bins.length := by
  unfold binFold
  rw [List.length_set]

theorem sahBins_length_aux (Nbins : ℕ) (cenmin cenmax : ℚ)
    (split_dim : ℕ) :
    ∀ (ps : List Proxy) (bins : List BinT),
      (ps.foldl (binFold Nbins cenmin cenmax split_dim) bins).length =
        bins.length
  | [], bins => rfl
  | p :: ps, bins => by
    rw [List.foldl_cons, sahBins_length_aux Nbins cenmin cenmax split_dim ps _, binFold_length]

theorem sahBins_length (Nbins : ℕ) (cenmin cenmax : ℚ) (split_dim : ℕ)
    (ps : List Proxy) :
    (sahBins Nbins cenmin cenmax split_dim ps).length = Nbins := by
  unfold sahBins
  rw [sahBins_length_aux, List.length_replicate]

/-- The bin at index `j` accumulates exactly the proxies whose bucket
index is `j`, in order: counting them and unioning their boxes. -/
theorem binFold_getD (Nbins : ℕ) (cenmin cenmax : ℚ) (split_dim : ℕ)
    (j : ℕ) :
    ∀ (ps : List Proxy) (bins : List BinT), j < bins.length →
      (ps.foldl (binFold Nbins cenmin cenmax split_dim) bins).getD j
        ((none : Option Aabb), 0) =
      ((ps.filter (fun p => binIndex Nbins cenmin cenmax
          (p.box_center.getD split_dim 0) == j)).foldl
        (fun b p => (unionStep b.1 p.box, b.2 + 1))
        (bins.getD j ((none : Option Aabb), 0)))
  | [], bins, _ => rfl
  | p :: ps, bins, hj => by
    rw [List.foldl_cons]
    by_cases hpos : binIndex Nbins cenmin cenmax
        (p.box_center.getD split_dim 0) = j
    · rw [List.filter_cons_of_pos (by simpa using hpos), List.foldl_cons]
      rw [binFold_getD Nbins cenmin cenmax split_dim j ps _
        (by rw [binFold_length]; exact hj)]
      congr 1
      unfold binFold
      rw [hpos]
      rw [List.getD_eq_getElem _ _ (by rw [List.length_set]; exact hj),
        List.getElem_set_self, List.getD_eq_getElem _ _ hj]
    · rw [List.filter_cons_of_neg (by simpa using hpos)]
      rw [binFold_getD Nbins cenmin cenmax split_dim j ps _
        (by rw [binFold_length]; exact hj)]
      congr 1
      unfold binFold
      rw [List.getD_eq_getElem _ _ (by rw [List.length_set]; exact hj),
        List.getElem_set_ne (by
          intro heq
          exact hpos heq), List.getD_eq_getElem _ _ hj]

theorem sahBins_getD (Nbins : ℕ) (cenmin cenmax : ℚ) (split_dim : ℕ)
    (ps : List Proxy) (j : ℕ) (hj : j < Nbins) :
    (sahBins Nbins cenmin cenmax split_dim ps).getD j
      ((none : Option Aabb), 0) =
      (surroundO ((ps.filter (fun p => binIndex Nbins cenmin cenmax
          (p.box_center.getD split_dim 0) == j)).map Proxy.box),
       (ps.filter (fun p => binIndex Nbins cenmin cenmax
          (p.box_center.getD split_dim 0) == j)).length) := by
  unfold sahBins
  rw [binFold_getD Nbins cenmin cenmax split_dim j ps _
    (by rw [List.length_replicate]; exact hj)]
  rw [List.getD_eq_getElem _ _ (by rw [List.length_replicate]; exact hj),
    List.getElem_replicate]
  generalize ps.filter (fun p => binIndex Nbins cenmin cenmax
    (p.box_center.getD split_dim 0) == j) = l
  induction l using List.reverseRecOn with
  | nil => rfl
  | append_singleton l p ih =>
    rw [List.foldl_append, List.foldl_cons, List.foldl_nil, ih,
      List.map_append, List.map_cons, List.map_nil]
    unfold surroundO
    rw [List.foldl_append, List.foldl_cons, List.foldl_nil,
      List.length_append]
    rfl

theorem binIndex_lt (Nbins : ℕ) (hN : 0 < Nbins) (cenmin cenmax cen : ℚ) :
    binIndex Nbins cenmin cenmax cen < Nbins := by
  unfold binIndex
  omega

theorem binIndex_at_min (Nbins : ℕ) (cenmin cenmax : ℚ) :
    binIndex Nbins cenmin cenmax cenmin = 0 := by
  unfold binIndex
  rw [sub_self, zero_div, mul_zero, Int.floor_zero]
  simp

theorem binIndex_at_max (Nbins : ℕ) (cenmin cenmax : ℚ)
    (h : cenmin ≠ cenmax) :
    binIndex Nbins cenmin cenmax cenmax = Nbins - 1 := by
  unfold binIndex
  rw [div_self (sub_ne_zero.mpr (fun hc => h (by linarith))), mul_one,
    Int.floor_natCast]
  simp

theorem foldl_unionStep_isSome :
    ∀ (l : List Aabb) (a : Aabb),
      (l.foldl unionStep (some a)).isSome = true
  | [], a => rfl
  | b :: l, a => by
    rw [List.foldl_cons]
    show (l.foldl unionStep (some (a.union b))).isSome = true
    exact foldl_unionStep_isSome l (a.union b)

theorem surroundO_isSome (l : List Aabb) (h : l ≠ []) :
    (surroundO l).isSome = true := by
  cases l with
  | nil => exact absurd rfl h
  | cons b l =>
    unfold surroundO
    rw [List.foldl_cons]
    exact foldl_unionStep_isSome l b

theorem binUnion_isSome (a b : BinT) :
    (binUnion a b).1.isSome = (a.1.isSome || b.1.isSome) := by
  obtain ⟨oa, na⟩ := a
  obtain ⟨ob, nb⟩ := b
  cases oa <;> cases ob <;> rfl

theorem binsCombine_isSome :
    ∀ (l : List BinT) (x : BinT), x ∈ l → x.1.isSome = true →
      (binsCombine l).1.isSome = true
  | [], x, hx, _ => absurd hx (List.not_mem_nil x)
  | b :: l, x, hx, hs => by
    rw [binsCombine_cons, binUnion_isSome]
    rcases List.mem_cons.mp hx with hx | hx
    · subst hx
      rw [hs]
      rfl
    · rw [binsCombine_isSome l x hx hs]
      simp

theorem getD_mem {α : Type} (l : List α) (d : α) (j : ℕ)
    (hj : j < l.length) : l.getD j d ∈ l := by
  rw [List.getD_eq_getElem _ _ hj]
  exact List.getElem_mem hj

theorem getD_drop {α : Type} (l : List α) (d : α) (i j : ℕ)
    (h : i + j < l.length) :
    (l.drop i).getD j d = l.getD (i + j) d := by
  rw [List.getD_eq_getElem _ _ (by rw [List.length_drop]; omega),
    List.getD_eq_getElem _ _ h]
  exact List.getElem_drop l

/-- **C4**: for a proxy range whose box of centers has nonzero extent
along the split axis (with witnesses pinning the box of centers to the
actual min and max center coordinate), the SAH strategy with `Nbins > 1`
(1) assigns every proxy a bucket index below `Nbins`, (2) accumulates in
bucket `j` exactly the proxies whose normalized-position bucket is `j`
(their count and the running union of their boxes), (3) produces sweep
costs equal to `leftSurfaceArea*leftCount + rightSurfaceArea*rightCount`
of the inclusive prefix and suffix bucket combinations (whose union boxes
are genuine, non-default boxes), (4) selects a candidate index minimizing
the cost array (the first minimum, as `std::min_element`), and
(5) partitions so that exactly the proxies with bucket index at most the
minimizing index go left, falling back to equal counts when either side
would be empty; (6) with zero center extent it returns the equal-count
split outright. -/
theorem C4_sah_split (Nbins : ℕ) (hN : 1 < Nbins) (box box_center : Aabb)
    (split_dim : ℕ) (ps : List Proxy) (cenmin cenmax : ℚ)
    (hcmin : cenmin = box_center.lo.getD split_dim 0)
    (hcmax : cenmax = box_center.hi.getD split_dim 0)
    (hdeg : cenmin ≠ cenmax)
    (hlo : ∃ p ∈ ps, p.box_center.getD split_dim 0 = cenmin)
    (hhi : ∃ p ∈ ps, p.box_center.getD split_dim 0 = cenmax) :
    (∀ p : Proxy,
      binIndex Nbins cenmin cenmax (p.box_center.getD split_dim 0) <
        Nbins) ∧
    (∀ j, j < Nbins →
      (sahBins Nbins cenmin cenmax split_dim ps).getD j
        ((none : Option Aabb), 0) =
        (surroundO ((ps.filter (fun p => binIndex Nbins cenmin cenmax
            (p.box_center.getD split_dim 0) == j)).map Proxy.box),
         (ps.filter (fun p => binIndex Nbins cenmin cenmax
            (p.box_center.getD split_dim 0) == j)).length)) ∧
    (∀ i, i < Nbins - 1 →
      (sahCosts (sahBins Nbins cenmin cenmax split_dim ps)).getD i 0 =
        binSA (sahSpecLeft (sahBins Nbins cenmin cenmax split_dim ps)
            i).1 *
          ((sahSpecLeft (sahBins Nbins cenmin cenmax split_dim ps)
            i).2 : ℚ) +
        binSA (sahSpecRight (sahBins Nbins cenmin cenmax split_dim ps)
            i).1 *
          ((sahSpecRight (sahBins Nbins cenmin cenmax split_dim ps)
            i).2 : ℚ) ∧
      (sahSpecLeft (sahBins Nbins cenmin cenmax split_dim ps)
        i).1.isSome = true ∧
      (sahSpecRight (sahBins Nbins cenmin cenmax split_dim ps)
        i).1.isSome = true) ∧
    (argminQ (sahCosts (sahBins Nbins cenmin cenmax split_dim ps)) <
        Nbins - 1 ∧
     ∀ i, i < Nbins - 1 →
       (sahCosts (sahBins Nbins cenmin cenmax split_dim ps)).getD
         (argminQ (sahCosts (sahBins Nbins cenmin cenmax split_dim ps)))
         0 ≤
       (sahCosts (sahBins Nbins cenmin cenmax split_dim ps)).getD i 0) ∧
    (((ps.filter (fun p => decide (binIndex Nbins cenmin cenmax
          (p.box_center.getD split_dim 0) ≤
          argminQ (sahCosts (sahBins Nbins cenmin cenmax split_dim
            ps))))).length ≠ 0 ∧
      (ps.filter (fun p => decide (binIndex Nbins cenmin cenmax
          (p.box_center.getD split_dim 0) ≤
          argminQ (sahCosts (sahBins Nbins cenmin cenmax split_dim
            ps))))).length ≠ ps.length →
        aabbtree_split_surface_area Nbins box box_center split_dim ps =
          (ps.filter (fun p => decide (binIndex Nbins cenmin cenmax
              (p.box_center.getD split_dim 0) ≤
              argminQ (sahCosts (sahBins Nbins cenmin cenmax split_dim
                ps)))) ++
           ps.filter (fun p => !decide (binIndex Nbins cenmin cenmax
              (p.box_center.getD split_dim 0) ≤
              argminQ (sahCosts (sahBins Nbins cenmin cenmax split_dim
                ps)))),
           (ps.filter (fun p => decide (binIndex Nbins cenmin cenmax
              (p.box_center.getD split_dim 0) ≤
              argminQ (sahCosts (sahBins Nbins cenmin cenmax split_dim
                ps))))).length)) ∧
     (¬((ps.filter (fun p => decide (binIndex Nbins cenmin cenmax
          (p.box_center.getD split_dim 0) ≤
          argminQ (sahCosts (sahBins Nbins cenmin cenmax split_dim
            ps))))).length ≠ 0 ∧
        (ps.filter (fun p => decide (binIndex Nbins cenmin cenmax
          (p.box_center.getD split_dim 0) ≤
          argminQ (sahCosts (sahBins Nbins cenmin cenmax split_dim
            ps))))).length ≠ ps.length) →
        aabbtree_split_surface_area Nbins box box_center split_dim ps =
          aabbtree_split_equal_counts box box_center split_dim ps)) ∧
    (∀ bc2 : Aabb, bc2.lo.getD split_dim 0 = bc2.hi.getD split_dim 0 →
      aabbtree_split_surface_area Nbins box bc2 split_dim ps =
        aabbtree_split_equal_counts box bc2 split_dim ps) := by
  subst hcmin
  subst hcmax
  have hN0 : 0 < Nbins := by omega
  have hbins_len := sahBins_length Nbins
    (box_center.lo.getD split_dim 0) (box_center.hi.getD split_dim 0)
    split_dim ps
  have hbins_ne : sahBins Nbins (box_center.lo.getD split_dim 0)
      (box_center.hi.getD split_dim 0) split_dim ps ≠ [] := by
    intro hnil
    rw [hnil] at hbins_len
    simp at hbins_len
    omega
  -- the two extreme bins hold at least one proxy, so their boxes are real
  have hbin0 : ((sahBins Nbins (box_center.lo.getD split_dim 0)
      (box_center.hi.getD split_dim 0) split_dim ps).getD 0
      ((none : Option Aabb), 0)).1.isSome = true := by
    rw [sahBins_getD _ _ _ _ _ _ hN0]
    obtain ⟨p, hp, hpc⟩ := hlo
    apply surroundO_isSome
    intro hnil
    rw [List.map_eq_nil_iff] at hnil
    have : p ∈ ps.filter (fun p => binIndex Nbins
        (box_center.lo.getD split_dim 0) (box_center.hi.getD split_dim 0)
        (p.box_center.getD split_dim 0) == 0) := by
      rw [List.mem_filter]
      refine ⟨hp, ?_⟩
      rw [hpc, binIndex_at_min]
      rfl
    rw [hnil] at this
    exact List.not_mem_nil p this
  have hbinLast : ((sahBins Nbins (box_center.lo.getD split_dim 0)
      (box_center.hi.getD split_dim 0) split_dim ps).getD (Nbins - 1)
      ((none : Option Aabb), 0)).1.isSome = true := by
    rw [sahBins_getD _ _ _ _ _ _ (by omega)]
    obtain ⟨q, hq, hqc⟩ := hhi
    apply surroundO_isSome
    intro hnil
    rw [List.map_eq_nil_iff] at hnil
    have : q ∈ ps.filter (fun p => binIndex Nbins
        (box_center.lo.getD split_dim 0) (box_center.hi.getD split_dim 0)
        (p.box_center.getD split_dim 0) == Nbins - 1) := by
      rw [List.mem_filter]
      refine ⟨hq, ?_⟩
      rw [hqc, binIndex_at_max _ _ _ hdeg]
      exact beq_self_eq_true _
    rw [hnil] at this
    exact List.not_mem_nil q this
  have hcosts_len := sahCosts_length (sahBins Nbins
    (box_center.lo.getD split_dim 0) (box_center.hi.getD split_dim 0)
    split_dim ps)
  rw [hbins_len] at hcosts_len
  refine ⟨?_, ?_, ?_, ⟨?_, ?_⟩, ⟨?_, ?_⟩, ?_⟩
  · intro p
    exact binIndex_lt Nbins hN0 _ _ _
  · intro j hj
    exact sahBins_getD _ _ _ _ _ j hj
  · intro i hi
    refine ⟨sahCosts_getD _ i (by omega), ?_, ?_⟩
    · obtain ⟨b, bs, hbbs⟩ := List.exists_cons_of_ne_nil hbins_ne
      have hb0 : b = (sahBins Nbins (box_center.lo.getD split_dim 0)
          (box_center.hi.getD split_dim 0) split_dim ps).getD 0
          ((none : Option Aabb), 0) := by
        rw [hbbs, List.getD_cons_zero]
      rw [sahSpecLeft, hbbs, List.take_succ_cons]
      exact binsCombine_isSome _ b (List.mem_cons_self b _)
        (by rw [hb0]; exact hbin0)

    · rw [sahSpecRight]
      have hidx : (Nbins - 1) - (i + 1) <
          ((sahBins Nbins (box_center.lo.getD split_dim 0)
            (box_center.hi.getD split_dim 0) split_dim ps).drop
            (i + 1)).length := by
        rw [List.length_drop, hbins_len]
        omega
      have hcast : ((sahBins Nbins (box_center.lo.getD split_dim 0)
          (box_center.hi.getD split_dim 0) split_dim ps).drop
          (i + 1)).getD ((Nbins - 1) - (i + 1))
          ((none : Option Aabb), 0) =
          (sahBins Nbins (box_center.lo.getD split_dim 0)
            (box_center.hi.getD split_dim 0) split_dim ps).getD
            (Nbins - 1) ((none : Option Aabb), 0) := by
        rw [getD_drop _ _ _ _ (by rw [hbins_len]; omega)]
        congr 1
        omega
      refine binsCombine_isSome _
        (((sahBins Nbins (box_center.lo.getD split_dim 0)
          (box_center.hi.getD split_dim 0) split_dim ps).drop
          (i + 1)).getD ((Nbins - 1) - (i + 1)) ((none : Option Aabb), 0))
        (getD_mem _ _ _ hidx) ?_
      rw [hcast]
      exact hbinLast
  · have hcne : sahCosts (sahBins Nbins (box_center.lo.getD split_dim 0)
        (box_center.hi.getD split_dim 0) split_dim ps) ≠ [] := by
      intro hnil
      rw [hnil] at hcosts_len
      simp at hcosts_len
      omega
    have := argminQ_lt_length _ hcne
    omega
  · intro i hi
    exact argminQ_getD_le _ i (by omega)
  · intro hnd
    simp only [aabbtree_split_surface_area]
    rw [if_neg hdeg, if_pos hnd]
  · intro hnd
    simp only [aabbtree_split_surface_area]
    rw [if_neg hdeg, if_neg hnd]
  · intro bc2 hz
    simp only [aabbtree_split_surface_area]
    rw [if_pos hz]

/-- Three literal proxies with distinct centers along axis 0, the center
box spanning exactly [1, 9] there. -/
def wProxA : List Proxy :=
  [⟨⟨[0, 0], [2, 2]⟩, [1, 1], 0⟩, ⟨⟨[4, 0], [6, 2]⟩, [5, 1], 1⟩,
   ⟨⟨[8, 0], [10, 2]⟩, [9, 1], 2⟩]

theorem C4_witness :
    argminQ (sahCosts (sahBins 8 1 9 0 wProxA)) < 8 - 1 ∧
    aabbtree_split_surface_area 8 (⟨[0, 0], [10, 2]⟩ : Aabb)
      (⟨[0, 0], [0, 1]⟩ : Aabb) 0 wProxA =
      aabbtree_split_equal_counts (⟨[0, 0], [10, 2]⟩ : Aabb)
        (⟨[0, 0], [0, 1]⟩ : Aabb) 0 wProxA := by
  have h := C4_sah_split 8 (by norm_num) (⟨[0, 0], [10, 2]⟩ : Aabb)
    (⟨[1, 1], [9, 1]⟩ : Aabb) 0 wProxA 1 9 (by decide) (by decide)
    (by decide) (by decide) (by decide)
  exact ⟨h.2.2.2.1.1, h.2.2.2.2.2 ⟨[0, 0], [0, 1]⟩ (by decide)⟩

/-- **C5**: on a range of at least 2 proxies, each of the three split
strategies returns a partition strictly inside the range (`0 < split`
index `< size`, so neither the first nor the one-past-last element) and
rearranges the range into a permutation of itself; and when all proxy
centers coincide along the split axis (so the box of centers is a point
there), equal-dimensions and SAH fall back to exactly the equal-count
median split, which is always strictly interior for sizes ≥ 2. -/
theorem C5_split_interior (box box_center : Aabb) (split_dim : ℕ)
    (ps : List Proxy) (h2 : 2 ≤ ps.length) :
    ((aabbtree_split_equal_counts box box_center split_dim ps).1.Perm ps ∧
     0 < (aabbtree_split_equal_counts box box_center split_dim ps).2 ∧
     (aabbtree_split_equal_counts box box_center split_dim ps).2 <
       ps.length) ∧
    ((aabbtree_split_equal_dimensions box box_center split_dim
        ps).1.Perm ps ∧
     0 < (aabbtree_split_equal_dimensions box box_center split_dim ps).2 ∧
     (aabbtree_split_equal_dimensions box box_center split_dim ps).2 <
       ps.length) ∧
    (∀ Nbins : ℕ,
      (aabbtree_split_surface_area Nbins box box_center split_dim
        ps).1.Perm ps ∧
      0 < (aabbtree_split_surface_area Nbins box box_center split_dim
        ps).2 ∧
      (aabbtree_split_surface_area Nbins box box_center split_dim ps).2 <
        ps.length) ∧
    (∀ c0 : ℚ, (∀ p ∈ ps, p.box_center.getD split_dim 0 = c0) →
      box_center.lo.getD split_dim 0 = c0 →
      box_center.hi.getD split_dim 0 = c0 →
      aabbtree_split_equal_dimensions box box_center split_dim ps =
        aabbtree_split_equal_counts box box_center split_dim ps ∧
      ∀ Nbins : ℕ,
        aabbtree_split_surface_area Nbins box box_center split_dim ps =
          aabbtree_split_equal_counts box box_center split_dim ps) := by
  refine ⟨goodSplit_equal_counts box box_center split_dim ps h2,
    goodSplit_equal_dimensions box box_center split_dim ps h2,
    fun Nbins => goodSplit_surface_area Nbins box box_center split_dim
      ps h2, ?_⟩
  intro c0 hcc hlo hhi
  constructor
  · simp only [aabbtree_split_equal_dimensions]
    have hcen : (box_center.lo.getD split_dim 0 +
        box_center.hi.getD split_dim 0) / 2 = c0 := by
      rw [hlo, hhi]
      ring
    rw [hcen]
    have hfil : ps.filter
        (fun p => decide (p.box_center.getD split_dim 0 < c0)) = [] := by
      rw [List.filter_eq_nil_iff]
      intro p hp
      simp only [decide_eq_true_eq]
      rw [hcc p hp]
      exact lt_irrefl c0
    rw [hfil]
    rw [if_neg (by simp)]
  · intro Nbins
    simp only [aabbtree_split_surface_area]
    rw [if_pos (by rw [hlo, hhi])]

/-- Three literal proxies whose centers coincide along axis 0. -/
def wProxSame : List Proxy :=
  [⟨⟨[0, 0], [2, 2]⟩, [1, 1], 0⟩, ⟨⟨[0, 0], [2, 2]⟩, [1, 1], 1⟩,
   ⟨⟨[0, 0], [2, 2]⟩, [1, 1], 2⟩]

theorem C5_witness :
    (aabbtree_split_equal_counts (⟨[0, 0], [2, 2]⟩ : Aabb)
      (⟨[1, 1], [1, 1]⟩ : Aabb) 0 wProxSame).1.Perm wProxSame ∧
    0 < (aabbtree_split_equal_counts (⟨[0, 0], [2, 2]⟩ : Aabb)
      (⟨[1, 1], [1, 1]⟩ : Aabb) 0 wProxSame).2 ∧
    (aabbtree_split_equal_counts (⟨[0, 0], [2, 2]⟩ : Aabb)
      (⟨[1, 1], [1, 1]⟩ : Aabb) 0 wProxSame).2 < wProxSame.length ∧
    aabbtree_split_equal_dimensions (⟨[0, 0], [2, 2]⟩ : Aabb)
      (⟨[1, 1], [1, 1]⟩ : Aabb) 0 wProxSame =
      aabbtree_split_equal_counts (⟨[0, 0], [2, 2]⟩ : Aabb)
        (⟨[1, 1], [1, 1]⟩ : Aabb) 0 wProxSame ∧
    aabbtree_split_surface_area 8 (⟨[0, 0], [2, 2]⟩ : Aabb)
      (⟨[1, 1], [1, 1]⟩ : Aabb) 0 wProxSame =
      aabbtree_split_equal_counts (⟨[0, 0], [2, 2]⟩ : Aabb)
        (⟨[1, 1], [1, 1]⟩ : Aabb) 0 wProxSame := by
  have h := C5_split_interior (⟨[0, 0], [2, 2]⟩ : Aabb)
    (⟨[1, 1], [1, 1]⟩ : Aabb) 0 wProxSame (by decide)
  have hf := h.2.2.2 1 (by decide) (by decide) (by decide)
  exact ⟨h.1.1, h.1.2.1, h.1.2.2, hf.1, hf.2 8⟩

end Preform








